import Mathlib

/-!
# Verification of the forward-chaining FOL engine

Shallow embedding of the inference engine found in `week7/Unification.py`
and `week8/fol.py`: fact parsing, substitutions (Python `dict`s over
strings), the unifier (both variants), the backtracking premise solver and
the round-based forward-chaining driver.

Modelling conventions:
* Python strings are Lean `String`s over their character lists; the regex
  `\w` is modelled for the ASCII inputs the program uses as
  "letter, digit or underscore", `.` (which does not match a newline) and
  the lazy group `(.*?)\)` are modelled by an explicit scan to the first
  `')'` that is not preceded by a newline.
* A Python `dict` is an insertion-ordered association list: lookup returns
  the first (unique) matching key, update rewrites the entry in place, a
  fresh key is appended at the end.
* The `IndexError` raised by `is_variable` on an empty string is made
  explicit: fallible functions return `Except PyError _`.
* Python `set`s of fact strings are insertion-ordered duplicate-free
  lists; everything proved about them is order-insensitive membership,
  counts, or runs at the program's own literal inputs.
-/

namespace FC

/-- The `IndexError` exception, the only one the embedded code can raise
(`is_variable` indexes `term[0]`). -/
inductive PyError where
  | indexError : PyError
deriving DecidableEq, Repr

instance {ε α : Type} [DecidableEq ε] [DecidableEq α] : DecidableEq (Except ε α) := fun a b =>
  match a, b with
  | .ok x, .ok y =>
    if h : x = y then isTrue (congrArg Except.ok h) else isFalse (fun he => h (Except.ok.inj he))
  | .error x, .error y =>
    if h : x = y then isTrue (congrArg Except.error h)
    else isFalse (fun he => h (Except.error.inj he))
  | .ok _, .error _ => isFalse (fun he => Except.noConfusion he)
  | .error _, .ok _ => isFalse (fun he => Except.noConfusion he)

/-- ASCII model of the regex class `\w`: letters, digits, underscore. -/
def wordChar (c : Char) : Bool := c.isAlphanum || c = '_'

/-- ASCII whitespace stripped by Python's `str.strip()`. -/
def wsChar (c : Char) : Bool := c = ' ' || c = '\t' || c = '\n' || c = '\r'

/-- Python `str.strip()` on a character list: drop whitespace from both ends. -/
def stripChars (l : List Char) : List Char :=
  ((l.dropWhile wsChar).reverse.dropWhile wsChar).reverse

/-- The lazy tail `(.*?)\)` of the fact regex: the characters before the
first `')'`, provided no newline comes first (`.` does not match `\n`). -/
def findCloseParen : List Char → Option (List Char)
  | [] => none
  | c :: cs =>
    if c = ')' then some []
    else if c = '\n' then none
    else (findCloseParen cs).map (c :: ·)

/-- Python's `args_str.split(',')` on a character list. -/
def splitOnComma : List Char → List (List Char)
  | [] => [[]]
  | c :: cs =>
    if c = ',' then [] :: splitOnComma cs
    else
      match splitOnComma cs with
      | [] => [[c]]
      | g :: gs => (c :: g) :: gs

/-- The regex step `re.match(r"(\w+)\((.*?)\)", s)`: the maximal nonempty word prefix,
then `'('`, then the lazy scan to `')'`.  Returns the two groups. -/
def parseCore (cs : List Char) : Option (List Char × List Char) :=
  if (cs.dropWhile wordChar).head? = some '(' then
    if (cs.takeWhile wordChar).isEmpty then none
    else (findCloseParen (cs.dropWhile wordChar).tail).map
      (fun inner => (cs.takeWhile wordChar, inner))
  else none

/-- The post-regex part of `parse_fact`: no match returns the whole
string with no arguments; an empty group gives no arguments; otherwise
split the group on commas and strip each piece. -/
def parseTail (s : String) : Option (List Char × List Char) → String × List String
  | none => (s, [])
  | some (w, inner) =>
    if inner.isEmpty then (String.mk w, [])
    else (String.mk w, (splitOnComma inner).map (fun g => String.mk (stripChars g)))

/-- Function `parse_fact` (identical in `Unification.py` and `fol.py`): on a regex
match split the argument group on commas and strip each piece; on no
match return the whole string as a zero-argument fact. -/
def parse_fact (s : String) : String × List String :=
  parseTail s (parseCore s.data)

/-- Function `is_variable`: `term[0].islower()`; raises `IndexError` on `""`. -/
def is_variable (t : String) : Except PyError Bool :=
  match t.data with
  | [] => .error .indexError
  | c :: _ => .ok c.isLower

/-- A substitution: a Python `dict` from variable names to terms,
modelled as an insertion-ordered association list with unique keys. -/
abbrev Subst := List (String × String)

/-- Lookup `d.get(k)` on a Python dict. -/
def dictGet (d : Subst) (k : String) : Option String :=
  match d with
  | [] => none
  | (k', v) :: rest => if k' = k then some v else dictGet rest k

/-- Assignment `d[k] = v` on a Python dict: update in place if the key exists,
otherwise append (insertion order). -/
def dictInsert (d : Subst) (k v : String) : Subst :=
  match d with
  | [] => [(k, v)]
  | (k', v') :: rest => if k' = k then (k', v) :: rest else (k', v') :: dictInsert rest k v

/-- Lookup `sub.get(arg, arg)`: resolve one term through a substitution. -/
def resolve (d : Subst) (a : String) : String := (dictGet d a).getD a

/-- Python `','.join(args)`. -/
def joinComma : List String → String
  | [] => ""
  | [a] => a
  | a :: rest => a ++ "," ++ joinComma rest

/-- The textual reconstruction `f"{pred}({','.join(args)})"` performed by
`apply_substitution`, with the bare predicate for an empty argument list. -/
def renderFact (pred : String) (args : List String) : String :=
  if args.isEmpty then pred else pred ++ "(" ++ joinComma args ++ ")"

/-- Function `apply_substitution`: parse the template, substitute each argument by
a single dictionary lookup, re-render. -/
def apply_substitution (tmpl : String) (sub : Subst) : String :=
  renderFact (parse_fact tmpl).1 ((parse_fact tmpl).2.map (resolve sub))

/-- The argument loop of `unify` in `week7/Unification.py`: tests the
original pattern argument with `is_variable` before deciding, and rebinds
the pattern argument itself. -/
def unifyPairs (pairs : List (String × String)) (sub : Subst) :
    Except PyError (Option Subst) :=
  match pairs with
  | [] => .ok (some sub)
  | (p, f) :: rest =>
    match is_variable p with
    | .error e => .error e
    | .ok true =>
      match is_variable (resolve sub p) with
      | .error e => .error e
      | .ok true => unifyPairs rest (dictInsert sub p f)
      | .ok false => if resolve sub p ≠ f then .ok none else unifyPairs rest sub
    | .ok false => if resolve sub p ≠ f then .ok none else unifyPairs rest sub

/-- Function `unify` from `week7/Unification.py`. -/
def unify (pattern fact : String) (existing_sub : Subst) :
    Except PyError (Option Subst) :=
  if (parse_fact pattern).1 ≠ (parse_fact fact).1 ∨
      (parse_fact pattern).2.length ≠ (parse_fact fact).2.length then .ok none
  else unifyPairs ((parse_fact pattern).2.zip (parse_fact fact).2) existing_sub

namespace fol

/-- The argument loop of `unify` in `week8/fol.py`: tests only the
resolved value and binds the resolved value (not the original argument). -/
def unifyPairs (pairs : List (String × String)) (sub : Subst) :
    Except PyError (Option Subst) :=
  match pairs with
  | [] => .ok (some sub)
  | (p, f) :: rest =>
    match is_variable (resolve sub p) with
    | .error e => .error e
    | .ok true => unifyPairs rest (dictInsert sub (resolve sub p) f)
    | .ok false => if resolve sub p ≠ f then .ok none else unifyPairs rest sub

/-- Function `unify` from `week8/fol.py`. -/
def unify (pattern fact : String) (sub : Subst) :
    Except PyError (Option Subst) :=
  if (parse_fact pattern).1 ≠ (parse_fact fact).1 ∨
      (parse_fact pattern).2.length ≠ (parse_fact fact).2.length then .ok none
  else unifyPairs ((parse_fact pattern).2.zip (parse_fact fact).2) sub

end fol

/-- One knowledge-base scan of the recursive generator
`find_substitutions_for_premises`: for each fact of the base try to unify
the current premise, and on success enumerate the recursive solutions
before moving to the next fact (depth-first yield order). -/
def fsStep (p : String) (sub : Subst)
    (recurse : Subst → Except PyError (List Subst)) :
    List String → Except PyError (List Subst)
  | [] => .ok []
  | f :: fs =>
    match unify p f sub with
    | .error e => .error e
    | .ok none => fsStep p sub recurse fs
    | .ok (some s1) =>
      match recurse s1 with
      | .error e => .error e
      | .ok xs =>
        match fsStep p sub recurse fs with
        | .error e => .error e
        | .ok ys => .ok (xs ++ ys)

/-- Generator `find_substitutions_for_premises` from `week7/Unification.py` (the
list of all substitutions the generator yields, in yield order). -/
def find_substitutions_for_premises :
    List String → List String → Subst → Except PyError (List Subst)
  | [], _, sub => .ok [sub]
  | p :: rest, kb, sub => fsStep p sub (find_substitutions_for_premises rest kb) kb

/-- A rule: ordered premise templates and one conclusion template. -/
abbrev Rule := List String × String

/-- Update `new_facts.add(inferred)` guarded by
`inferred not in kb and inferred not in new_facts`. -/
def addIfNew (kb acc : List String) (f : String) : List String :=
  if f ∈ kb ∨ f ∈ acc then acc else acc ++ [f]

/-- The rule loop of one forward-chaining round: every rule is evaluated
by the premise solver against the same knowledge base `kb`; freshly
derived facts go only into the round-local accumulator. -/
def roundRules (kb : List String) :
    List Rule → List String → Except PyError (List String)
  | [], acc => .ok acc
  | (premises, conclusion) :: rest, acc =>
    match find_substitutions_for_premises premises kb [] with
    | .error e => .error e
    | .ok subs =>
      roundRules kb rest
        (subs.foldl (fun a s => addIfNew kb a (apply_substitution conclusion s)) acc)

/-- The batch of new facts a single round derives (`new_facts` at the end
of the rule loop). -/
def roundNewFacts (rules : List Rule) (kb : List String) :
    Except PyError (List String) :=
  roundRules kb rules []

/-- Result of a terminated run: the final verdict `query in kb`, the
value of `iteration` at the break, the per-round batches of derived facts
(the inference trace), and the final knowledge base. -/
structure FCResult where
  proven : Bool
  iterations : Nat
  trace : List (List String)
  finalKB : List String
deriving DecidableEq, Repr

/-- The `while True` loop of `forward_chaining`, with explicit fuel:
`.ok none` means the fuel ran out before the loop broke.  Each iteration
computes the round batch from the current `kb`, halts on an empty batch,
otherwise merges the batch and halts if the query appeared. -/
def fcLoop (rules : List Rule) (query : String) :
    Nat → List String → List (List String) → Nat →
    Except PyError (Option FCResult)
  | 0, _, _, _ => .ok none
  | fuel + 1, kb, batches, iter =>
    match roundNewFacts rules kb with
    | .error e => .error e
    | .ok batch =>
      if batch.isEmpty then .ok (some ⟨decide (query ∈ kb), iter, batches, kb⟩)
      else if query ∈ kb ++ batch then
        .ok (some ⟨true, iter, batches ++ [batch], kb ++ batch⟩)
      else fcLoop rules query fuel (kb ++ batch) (batches ++ [batch]) (iter + 1)

/-- Function `forward_chaining` from `week7/Unification.py` (fuelled; the Python
loop has no cap, termination is proved separately). -/
def forward_chaining (fuel : Nat) (kb : List String) (rules : List Rule)
    (query : String) : Except PyError (Option FCResult) :=
  fcLoop rules query fuel kb [] 1

/-! ## The crime scenario (`__main__` of both files) -/

/-- The initial knowledge base of the crime example, in source order. -/
def crimeKB : List String :=
  ["American(Robert)", "Owns(A, T1)", "Missile(T1)", "Enemy(A, America)"]

/-- The four rules in the order `week8/fol.py` lists them (the order the
specification's scenario uses). -/
def crimeRules : List Rule :=
  [(["Missile(x)"], "Weapon(x)"),
   (["Enemy(x, America)"], "Hostile(x)"),
   (["Missile(x)", "Owns(A, x)"], "Sells(Robert, x, A)"),
   (["American(p)", "Weapon(q)", "Sells(p, q, r)", "Hostile(r)"], "Criminal(p)")]

/-! ## Term classification (the lexical convention of `is_variable`) -/

/-- A term string that `is_variable` classifies as a Variable: nonempty,
first character lowercase. -/
def isVarName (t : String) : Bool :=
  match t.data with
  | [] => false
  | c :: _ => c.isLower

/-- A term string that `is_variable` classifies as a Constant: nonempty,
first character not lowercase. -/
def isConstName (t : String) : Bool :=
  match t.data with
  | [] => false
  | c :: _ => !c.isLower

/-- A substitution whose keys are variable names and whose values are
constant names — the shape every substitution built by the engine from
ground facts has. -/
def CleanSub (s : Subst) : Prop :=
  ∀ kv ∈ s, isVarName kv.1 = true ∧ isConstName kv.2 = true

instance (s : Subst) : Decidable (CleanSub s) := by
  unfold CleanSub; infer_instance

/-! ## C1: the crime scenario -/

set_option maxRecDepth 10000 in
/-- Claim C1. Running the forward-chaining driver on the initial facts
`American(Robert)`, `Owns(A,T1)`, `Missile(T1)`, `Enemy(A,America)` with
the four scenario rules and the query `Criminal(Robert)` derives exactly
`Weapon(T1)`, `Hostile(A)`, `Sells(Robert,T1,A)` in round 1 (the first
trace batch), derives `Criminal(Robert)` in round 2 (the second batch),
and halts reporting the query proven with `iteration = 2` and a trace of
4 inference steps in total. -/
theorem crime_query_proven_in_two_rounds :
    forward_chaining 10 crimeKB crimeRules "Criminal(Robert)" =
      .ok (some ⟨true, 2,
        [["Weapon(T1)", "Hostile(A)", "Sells(Robert,T1,A)"], ["Criminal(Robert)"]],
        crimeKB ++ ["Weapon(T1)", "Hostile(A)", "Sells(Robert,T1,A)"] ++
          ["Criminal(Robert)"]⟩) := by
  decide

/-! ## C5: `parse_fact` on malformed input -/

/-- Claim C5, counterexample: `parse_fact` cannot fail: on text that is not
of the form `Name` or `Name(arg, ..., arg)` — here `"Name("` with an
unbalanced parenthesis and `"("` which contains no identifier at all — it
returns a `Fact` value (the whole input as a zero-argument predicate)
instead of failing with a `ParseError`.  The code has no failure path. -/
theorem parse_fact_returns_fact_on_malformed :
    parse_fact "Name(" = ("Name(", []) ∧ parse_fact "(" = ("(", []) ∧
      "Name(".data.all wordChar = false ∧ "(".data.all wordChar = false := by
  decide

/-- Claim C5, amended: `parse_fact` never fails.  Whenever the input
contains no `'('` at all — in particular for arbitrary punctuation or
non-identifier text — it returns the entire input unchanged as a
zero-argument fact rather than rejecting it. -/
theorem parse_fact_total_no_paren (s : String) (h : ∀ c ∈ s.data, c ≠ '(') :
    parse_fact s = (s, []) := by
  unfold parse_fact parseCore
  cases hd : s.data.dropWhile wordChar with
  | nil => simp [parseTail]
  | cons c rest =>
    have hc : c ∈ s.data := (List.dropWhile_sublist wordChar).mem (by rw [hd]; exact .head _)
    simp [parseTail, h c hc]

/-- Witness for `parse_fact_total_no_paren` at the concrete malformed
input `"@#! not a fact"`. -/
theorem parse_fact_total_no_paren_witness :
    (∀ c ∈ "@#! not a fact".data, c ≠ '(') ∧
      parse_fact "@#! not a fact" = ("@#! not a fact", []) :=
  ⟨by decide, parse_fact_total_no_paren _ (by decide)⟩

/-! ## C10: `is_variable` on the empty string -/

/-- Claim C10, counterexample: a pattern whose parsed argument list contains
an empty-string term does **not** raise an `IndexError` against every
same-predicate same-arity fact: for the pattern `"P(A,)"` (parsed
arguments `["A", ""]`) and the fact `"P(B,B)"`, the constant mismatch
`A ≠ B` at the first position makes `unify` return `None` before the
empty argument is ever inspected. -/
theorem unify_empty_arg_can_return_none :
    parse_fact "P(A,)" = ("P", ["A", ""]) ∧
      (parse_fact "P(B,B)").1 = "P" ∧ (parse_fact "P(B,B)").2.length = 2 ∧
      unify "P(A,)" "P(B,B)" [] = .ok none := by
  decide

/-- Claim C10, amended: `is_variable` inspects `term[0]` with no emptiness
guard, so `unify` is partial: for every pattern whose parsed argument
list *begins* with an empty-string term (producible by `parse_fact` from
text such as `"P(,a)"`), unification against any fact with the same
predicate and the same argument count raises `IndexError` — for every
substitution — instead of returning a substitution or `None`. -/
theorem unify_raises_on_empty_first_arg (pattern fact : String) (sub : Subst)
    (hhead : (parse_fact pattern).2.head? = some "")
    (hpred : (parse_fact pattern).1 = (parse_fact fact).1)
    (hlen : (parse_fact pattern).2.length = (parse_fact fact).2.length) :
    unify pattern fact sub = .error .indexError := by
  unfold unify
  rw [if_neg (not_or.mpr ⟨not_ne_iff.mpr hpred, not_ne_iff.mpr hlen⟩)]
  obtain ⟨pt, hp⟩ : ∃ t, (parse_fact pattern).2 = "" :: t := by
    cases hq : (parse_fact pattern).2 with
    | nil => rw [hq] at hhead; simp at hhead
    | cons a t =>
      rw [hq] at hhead
      simp only [List.head?_cons, Option.some.injEq] at hhead
      exact ⟨t, by rw [hhead]⟩
  rw [hp] at hlen
  obtain ⟨f0, ft, hf⟩ : ∃ b t, (parse_fact fact).2 = b :: t := by
    cases hq : (parse_fact fact).2 with
    | nil => rw [hq] at hlen; simp at hlen
    | cons b t => exact ⟨b, t, rfl⟩
  rw [hp, hf]
  simp [unifyPairs, is_variable]

/-- Witness for `unify_raises_on_empty_first_arg` at the concrete inputs
from the claim: pattern `"P(,a)"`, fact `"P(X,B)"`, empty substitution. -/
theorem unify_raises_on_empty_first_arg_witness :
    unify "P(,a)" "P(X,B)" [] = .error .indexError :=
  unify_raises_on_empty_first_arg "P(,a)" "P(X,B)" [] (by decide) (by decide) (by decide)

/-! ## Parse/render infrastructure -/

theorem mk_data (s : String) : String.mk s.data = s := by
  cases s; rfl

theorem wsChar_iff (c : Char) :
    wsChar c = true ↔ c = ' ' ∨ c = '\t' ∨ c = '\n' ∨ c = '\r' := by
  simp [wsChar, or_assoc]

theorem wordChar_not_ws (c : Char) (h : wordChar c = true) : wsChar c = false := by
  by_contra h'
  rcases (wsChar_iff c).mp (by simpa using h') with rfl | rfl | rfl | rfl <;> simp [wordChar] at h

theorem wordChar_ne (c : Char) (h : wordChar c = true) :
    c ≠ ',' ∧ c ≠ ')' ∧ c ≠ '(' ∧ c ≠ '\n' := by
  refine ⟨?_, ?_, ?_, ?_⟩ <;> rintro rfl <;> simp [wordChar] at h

theorem dropWhile_head_false (p : Char → Bool) (l : List Char) (c : Char) (u : List Char)
    (h : l.dropWhile p = c :: u) : p c = false := by
  induction l with
  | nil => simp at h
  | cons a t ih =>
    rw [List.dropWhile_cons] at h
    by_cases ha : p a
    · rw [if_pos ha] at h; exact ih h
    · rw [if_neg ha] at h
      cases h
      simpa using ha

theorem dropWhile_of_all_false (p : Char → Bool) (l : List Char)
    (h : ∀ c ∈ l, p c = false) : l.dropWhile p = l := by
  cases l with
  | nil => rfl
  | cons a t =>
    rw [List.dropWhile_cons, if_neg (by simp [h a (List.mem_cons_self a t)])]

theorem stripChars_eq_rdropWhile (l : List Char) :
    stripChars l = List.rdropWhile wsChar (l.dropWhile wsChar) := rfl

theorem stripChars_idem (l : List Char) : stripChars (stripChars l) = stripChars l := by
  rw [stripChars_eq_rdropWhile, stripChars_eq_rdropWhile]
  have h1 : (List.rdropWhile wsChar (l.dropWhile wsChar)).dropWhile wsChar =
      List.rdropWhile wsChar (l.dropWhile wsChar) := by
    cases hr : List.rdropWhile wsChar (l.dropWhile wsChar) with
    | nil => rfl
    | cons c u =>
      obtain ⟨t, ht⟩ := List.rdropWhile_prefix wsChar (l.dropWhile wsChar)
      rw [hr] at ht
      have hdrop : l.dropWhile wsChar = c :: (u ++ t) := by rw [← ht]; rfl
      have hdrop2 : (l.dropWhile wsChar).dropWhile wsChar = l.dropWhile wsChar :=
        List.dropWhile_idempotent wsChar l
      rw [hdrop] at hdrop2
      have hc : wsChar c = false := dropWhile_head_false wsChar _ c _ hdrop2
      rw [List.dropWhile_cons, if_neg (by simp [hc])]
  rw [h1, List.rdropWhile_idempotent]

theorem stripChars_of_no_ws (l : List Char) (h : ∀ c ∈ l, wsChar c = false) :
    stripChars l = l := by
  unfold stripChars
  rw [dropWhile_of_all_false _ _ h,
    dropWhile_of_all_false _ _ (fun c hc => h c (List.mem_reverse.mp hc)),
    List.reverse_reverse]

theorem takeWhile_append_not (p : Char → Bool) (l : List Char) (x : Char) (r : List Char)
    (hl : ∀ c ∈ l, p c = true) (hx : p x = false) :
    (l ++ x :: r).takeWhile p = l ∧ (l ++ x :: r).dropWhile p = x :: r := by
  induction l with
  | nil => simp [List.takeWhile_cons, List.dropWhile_cons, hx]
  | cons a t ih =>
    have ha : p a = true := hl a (.head _)
    have := ih (fun c hc => hl c (.tail _ hc))
    simp [List.takeWhile_cons, List.dropWhile_cons, ha, this.1, this.2]

theorem findCloseParen_append (l r : List Char)
    (hl : ∀ c ∈ l, c ≠ ')' ∧ c ≠ '\n') :
    findCloseParen (l ++ ')' :: r) = some l := by
  induction l with
  | nil => simp [findCloseParen]
  | cons a t ih =>
    have ha := hl a (.head _)
    rw [List.cons_append]
    unfold findCloseParen
    rw [if_neg ha.1, if_neg ha.2, ih (fun c hc => hl c (.tail _ hc))]
    rfl

theorem splitOnComma_cons_ne (c : Char) (cs : List Char) (hc : c ≠ ',') :
    splitOnComma (c :: cs) =
      match splitOnComma cs with
      | [] => [[c]]
      | g :: gs => (c :: g) :: gs := by
  simp only [splitOnComma]
  rw [if_neg hc]

theorem splitOnComma_no_comma (a : List Char) (ha : ∀ c ∈ a, c ≠ ',') :
    splitOnComma a = [a] := by
  induction a with
  | nil => rfl
  | cons c t ih =>
    rw [splitOnComma_cons_ne c t (ha c (.head _)), ih (fun x hx => ha x (.tail _ hx))]

theorem splitOnComma_append (a rest : List Char) (ha : ∀ c ∈ a, c ≠ ',') :
    splitOnComma (a ++ ',' :: rest) = a :: splitOnComma rest := by
  induction a with
  | nil =>
    rw [List.nil_append]
    simp only [splitOnComma]
    simp
  | cons c t ih =>
    rw [List.cons_append, splitOnComma_cons_ne c _ (ha c (.head _)),
      ih (fun x hx => ha x (.tail _ hx))]

theorem joinComma_data_cons (a b : String) (t : List String) :
    (joinComma (a :: b :: t)).data = a.data ++ ',' :: (joinComma (b :: t)).data := by
  show (a ++ "," ++ joinComma (b :: t)).data = _
  rw [String.data_append, String.data_append, List.append_assoc]
  rfl

theorem mem_joinComma_data (args : List String) (c : Char)
    (h : c ∈ (joinComma args).data) : c = ',' ∨ ∃ a ∈ args, c ∈ a.data := by
  induction args with
  | nil => simp [joinComma] at h
  | cons a t ih =>
    cases t with
    | nil => exact .inr ⟨a, by simp, h⟩
    | cons b u =>
      rw [joinComma_data_cons] at h
      rcases List.mem_append.mp h with h1 | h2
      · exact .inr ⟨a, List.mem_cons_self a _, h1⟩
      · rcases List.mem_cons.mp h2 with rfl | h3
        · exact .inl rfl
        · rcases ih h3 with h4 | ⟨x, hx, hc⟩
          · exact .inl h4
          · exact .inr ⟨x, List.mem_cons_of_mem a hx, hc⟩

theorem splitOnComma_joinComma (args : List String)
    (hne : args ≠ [])
    (h : ∀ a ∈ args, ∀ c ∈ a.data, c ≠ ',') :
    splitOnComma (joinComma args).data = args.map String.data := by
  induction args with
  | nil => exact absurd rfl hne
  | cons a t ih =>
    cases t with
    | nil =>
      rw [show joinComma [a] = a from rfl, splitOnComma_no_comma a.data (h a (.head _))]
      rfl
    | cons b u =>
      rw [joinComma_data_cons, splitOnComma_append _ _ (h a (.head _)),
        ih (by simp) (fun x hx => h x (.tail _ hx))]
      rfl

theorem joinComma_ne_nil (a : String) (t : List String) (ha : a.data ≠ []) :
    (joinComma (a :: t)).data ≠ [] := by
  cases t with
  | nil => exact ha
  | cons b u => rw [joinComma_data_cons]; simp [ha]

/-- Parsing a pure word string (every character in `\w`): no
parenthesis, so the regex fails and the whole string comes back. -/
theorem parse_fact_word (s : String) (h : ∀ c ∈ s.data, wordChar c = true) :
    parse_fact s = (s, []) := by
  unfold parse_fact parseCore
  rw [List.dropWhile_eq_nil_iff.mpr (by intro c hc; simpa using h c hc)]
  simp [parseTail]

/-- Parsing the rendered form of a fact with a word predicate and
comma-free, parenthesis-free, newline-free, whitespace-stripped nonempty
arguments recovers the predicate and the arguments exactly. -/
theorem parse_renderFact (pred : String) (args : List String)
    (hne : args ≠ [])
    (hpred : pred.data ≠ [] ∧ ∀ c ∈ pred.data, wordChar c = true)
    (hargs : ∀ a ∈ args, a.data ≠ [] ∧
      (∀ c ∈ a.data, c ≠ ',' ∧ c ≠ ')' ∧ c ≠ '\n') ∧ stripChars a.data = a.data) :
    parse_fact (renderFact pred args) = (pred, args) := by
  have hdata : (renderFact pred args).data =
      pred.data ++ '(' :: ((joinComma args).data ++ [')']) := by
    unfold renderFact
    rw [if_neg (by simpa using hne)]
    rw [String.data_append, String.data_append, String.data_append]
    simp
  have hw := takeWhile_append_not wordChar pred.data '(' ((joinComma args).data ++ [')'])
    hpred.2 (by decide)
  have hjoin : ∀ c ∈ (joinComma args).data, c ≠ ')' ∧ c ≠ '\n' := by
    intro c hc
    rcases mem_joinComma_data args c hc with rfl | ⟨a, ha, hca⟩
    · exact ⟨by decide, by decide⟩
    · exact ⟨((hargs a ha).2.1 c hca).2.1, ((hargs a ha).2.1 c hca).2.2⟩
  have hfind : findCloseParen ((joinComma args).data ++ [')']) = some (joinComma args).data := by
    have := findCloseParen_append (joinComma args).data [] hjoin
    simpa using this
  obtain ⟨a0, t0, rfl⟩ : ∃ a t, args = a :: t := by
    cases args with
    | nil => exact absurd rfl hne
    | cons a t => exact ⟨a, t, rfl⟩
  have hjne : (joinComma (a0 :: t0)).data ≠ [] :=
    joinComma_ne_nil a0 t0 (hargs a0 (.head _)).1
  have hcore : parseCore (renderFact pred (a0 :: t0)).data =
      some (pred.data, (joinComma (a0 :: t0)).data) := by
    unfold parseCore
    rw [hdata, hw.2, hw.1, List.head?_cons, List.tail_cons]
    rw [if_pos rfl, if_neg (by simpa using hpred.1), hfind]
    rfl
  unfold parse_fact
  rw [hcore]
  simp only [parseTail]
  rw [if_neg (by simpa using hjne)]
  rw [splitOnComma_joinComma _ hne (fun a ha c hc => ((hargs a ha).2.1 c hc).1)]
  rw [mk_data]
  have hmap : List.map (fun g => String.mk (stripChars g)) (List.map String.data (a0 :: t0)) =
      a0 :: t0 := by
    rw [List.map_map]
    have hcong : ∀ a ∈ a0 :: t0, ((fun g => String.mk (stripChars g)) ∘ String.data) a = id a := by
      intro a ha
      show String.mk (stripChars a.data) = a
      rw [(hargs a ha).2.2, mk_data]
    rw [List.map_congr_left hcong, List.map_id]
  rw [hmap]

/-! ## C8: parse/render round trip for ground facts -/

/-- Claim C8. For every ground fact — a predicate that is a nonempty
identifier (word characters) and a possibly empty list of constant
arguments that are nonempty identifiers not starting with a lowercase
letter — rendering it the way `apply_substitution` reconstructs facts
(`renderFact`: the bare predicate when the argument list is empty,
otherwise the predicate followed by the comma-joined arguments in
parentheses) and parsing the result with `parse_fact` yields the same
predicate and the same argument list, position for position. -/
theorem parse_render_round_trip (pred : String) (args : List String)
    (hpred : pred.data ≠ [] ∧ ∀ c ∈ pred.data, wordChar c = true)
    (hargs : ∀ a ∈ args, a.data ≠ [] ∧ (∀ c ∈ a.data, wordChar c = true) ∧
      isConstName a = true) :
    parse_fact (renderFact pred args) = (pred, args) := by
  cases hargs0 : args with
  | nil =>
    show parse_fact (renderFact pred []) = (pred, [])
    unfold renderFact
    rw [if_pos (by simp)]
    exact parse_fact_word pred hpred.2
  | cons a t =>
    rw [← hargs0]
    apply parse_renderFact pred args (by rw [hargs0]; simp) hpred
    intro a ha
    obtain ⟨h1, h2, _⟩ := hargs a ha
    refine ⟨h1, ?_, ?_⟩
    · intro c hc
      obtain ⟨hc1, hc2, _, hc4⟩ := wordChar_ne c (h2 c hc)
      exact ⟨hc1, hc2, hc4⟩
    · exact stripChars_of_no_ws _ (fun c hc => wordChar_not_ws c (h2 c hc))

/-- Witness for `parse_render_round_trip` at the ground fact
`Sells(Robert, T1, A)`. -/
theorem parse_render_round_trip_witness :
    parse_fact (renderFact "Sells" ["Robert", "T1", "A"]) =
      ("Sells", ["Robert", "T1", "A"]) :=
  parse_render_round_trip "Sells" ["Robert", "T1", "A"] (by decide) (by decide)

/-! ## Dictionary and classification lemmas -/

theorem dictGet_mem (d : Subst) (k v : String) (h : dictGet d k = some v) : (k, v) ∈ d := by
  induction d with
  | nil => simp [dictGet] at h
  | cons kv rest ih =>
    obtain ⟨k', v'⟩ := kv
    unfold dictGet at h
    by_cases hk : k' = k
    · rw [if_pos hk] at h
      cases h
      exact hk ▸ List.mem_cons_self _ _
    · rw [if_neg hk] at h
      exact List.mem_cons_of_mem _ (ih h)

theorem cleanSub_get (sub : Subst) (hs : CleanSub sub) (k v : String)
    (h : dictGet sub k = some v) : isVarName k = true ∧ isConstName v = true :=
  hs (k, v) (dictGet_mem sub k v h)

theorem cleanSub_get_none (sub : Subst) (hs : CleanSub sub) (k : String)
    (h : isVarName k = false) : dictGet sub k = none := by
  cases hg : dictGet sub k with
  | none => rfl
  | some v =>
    have := (cleanSub_get sub hs k v hg).1
    rw [h] at this
    cases this

theorem cleanSub_insert (sub : Subst) (hs : CleanSub sub) (k v : String)
    (hk : isVarName k = true) (hv : isConstName v = true) :
    CleanSub (dictInsert sub k v) := by
  induction sub with
  | nil => intro kv hkv; simp [dictInsert] at hkv; simp [hkv, hk, hv]
  | cons kv0 rest ih =>
    obtain ⟨k0, v0⟩ := kv0
    have h0 := hs (k0, v0) (List.mem_cons_self _ _)
    have hrest : CleanSub rest := fun kv hkv => hs kv (List.mem_cons_of_mem _ hkv)
    intro kv hkv
    unfold dictInsert at hkv
    by_cases hke : k0 = k
    · rw [if_pos hke] at hkv
      rcases List.mem_cons.mp hkv with rfl | htail
      · exact ⟨h0.1, hv⟩
      · exact hs kv (List.mem_cons_of_mem _ htail)
    · rw [if_neg hke] at hkv
      rcases List.mem_cons.mp hkv with rfl | htail
      · exact h0
      · exact ih hrest kv htail

theorem is_variable_of_varName (t : String) (h : isVarName t = true) :
    is_variable t = .ok true := by
  unfold isVarName at h
  unfold is_variable
  cases ht : t.data with
  | nil => simp [ht] at h
  | cons c u =>
    rw [ht] at h
    simp at h
    simp [h]

theorem is_variable_of_constName (t : String) (h : isConstName t = true) :
    is_variable t = .ok false := by
  unfold isConstName at h
  unfold is_variable
  cases ht : t.data with
  | nil => simp [ht] at h
  | cons c u =>
    rw [ht] at h
    simp at h
    simp [h]

theorem is_variable_of_empty (t : String) (h : t.data = []) :
    is_variable t = .error .indexError := by
  unfold is_variable
  rw [h]

theorem constName_not_varName (t : String) (h : isConstName t = true) :
    isVarName t = false := by
  unfold isConstName at h
  unfold isVarName
  cases ht : t.data with
  | nil => simp [ht] at h
  | cons c u =>
    rw [ht] at h
    simp at h
    simp [h]

theorem varName_or_constName_or_empty (t : String) :
    isVarName t = true ∨ isConstName t = true ∨ t.data = [] := by
  unfold isVarName isConstName
  cases ht : t.data with
  | nil => exact .inr (.inr rfl)
  | cons c u =>
    cases hc : c.isLower with
    | true => exact .inl (by simp [hc])
    | false => exact .inr (.inl (by simp [hc]))

/-! ## C9: the two unify variants agree on engine-shaped inputs -/

theorem unifyPairs_agree (pairs : List (String × String)) (sub : Subst)
    (hf : ∀ pf ∈ pairs, isConstName pf.2 = true) (hs : CleanSub sub) :
    unifyPairs pairs sub = fol.unifyPairs pairs sub := by
  induction pairs generalizing sub with
  | nil => rfl
  | cons pf rest ih =>
    obtain ⟨p, f⟩ := pf
    have hfc : isConstName f = true := hf (p, f) (List.mem_cons_self _ _)
    have hfr : ∀ pf ∈ rest, isConstName pf.2 = true :=
      fun pf hpf => hf pf (List.mem_cons_of_mem _ hpf)
    rcases varName_or_constName_or_empty p with hp | hp | hp
    · cases hg : dictGet sub p with
      | none =>
        have hr : resolve sub p = p := by unfold resolve; rw [hg]; rfl
        simp only [unifyPairs, fol.unifyPairs, hr, is_variable_of_varName p hp]
        exact ih (dictInsert sub p f) hfr (cleanSub_insert sub hs p f hp hfc)
      | some v =>
        have hr : resolve sub p = v := by unfold resolve; rw [hg]; rfl
        have hv := (cleanSub_get sub hs p v hg).2
        simp only [unifyPairs, fol.unifyPairs, hr, is_variable_of_varName p hp,
          is_variable_of_constName v hv]
        by_cases hvf : v = f
        · rw [if_neg (by simpa using hvf), if_neg (by simpa using hvf)]
          exact ih sub hfr hs
        · rw [if_pos (by simpa using hvf), if_pos (by simpa using hvf)]
    · have hg : dictGet sub p = none :=
        cleanSub_get_none sub hs p (constName_not_varName p hp)
      have hr : resolve sub p = p := by unfold resolve; rw [hg]; rfl
      simp only [unifyPairs, fol.unifyPairs, hr, is_variable_of_constName p hp]
      by_cases hvf : p = f
      · rw [if_neg (by simpa using hvf), if_neg (by simpa using hvf)]
        exact ih sub hfr hs
      · rw [if_pos (by simpa using hvf), if_pos (by simpa using hvf)]
    · have hg : dictGet sub p = none := by
        apply cleanSub_get_none sub hs
        unfold isVarName
        rw [hp]
      have hr : resolve sub p = p := by unfold resolve; rw [hg]; rfl
      simp only [unifyPairs, fol.unifyPairs, hr, is_variable_of_empty p hp]

/-- Claim C9. The `week8/fol.py` unify (single-lookup rebinding through the
resolved value) and the `week7/Unification.py` unify (tests the original
pattern argument before binding it) return equal results — the same
substitution on success, `None` on the same failures, and even the same
`IndexError` cases — for every pattern, every ground fact whose parsed
arguments are all constant names, and every input substitution mapping
variable names to constant names. -/
theorem unify_variants_agree (pattern fact : String) (sub : Subst)
    (hf : ∀ a ∈ (parse_fact fact).2, isConstName a = true)
    (hs : CleanSub sub) :
    unify pattern fact sub = fol.unify pattern fact sub := by
  unfold unify fol.unify
  by_cases hg : (parse_fact pattern).1 ≠ (parse_fact fact).1 ∨
      (parse_fact pattern).2.length ≠ (parse_fact fact).2.length
  · rw [if_pos hg, if_pos hg]
  · rw [if_neg hg, if_neg hg]
    apply unifyPairs_agree _ sub _ hs
    intro pf hpf
    exact hf pf.2 (List.of_mem_zip hpf).2

/-- Witness for `unify_variants_agree` at the pattern `Sells(p, q, r)`,
the ground fact `Sells(Robert,T1,A)` and the substitution `{p ↦ Robert}`
(both variants return `{p ↦ Robert, q ↦ T1, r ↦ A}`). -/
theorem unify_variants_agree_witness :
    unify "Sells(p, q, r)" "Sells(Robert,T1,A)" [("p", "Robert")] =
      fol.unify "Sells(p, q, r)" "Sells(Robert,T1,A)" [("p", "Robert")] :=
  unify_variants_agree "Sells(p, q, r)" "Sells(Robert,T1,A)" [("p", "Robert")]
    (by decide) (by decide)

/-! ## Parse-origin facts: what parsed predicates and arguments look like -/

theorem splitOnComma_ne_nil (l : List Char) : splitOnComma l ≠ [] := by
  cases l with
  | nil => simp [splitOnComma]
  | cons c cs =>
    simp only [splitOnComma]
    by_cases hc : c = ','
    · rw [if_pos hc]; simp
    · rw [if_neg hc]
      cases splitOnComma cs <;> simp

theorem splitOnComma_mem (l : List Char) (g : List Char) (hg : g ∈ splitOnComma l)
    (c : Char) (hc : c ∈ g) : c ∈ l ∧ c ≠ ',' := by
  induction l generalizing g with
  | nil =>
    simp [splitOnComma] at hg
    rw [hg] at hc
    cases hc
  | cons c0 cs ih =>
    simp only [splitOnComma] at hg
    by_cases h0 : c0 = ','
    · rw [if_pos h0] at hg
      rcases List.mem_cons.mp hg with rfl | htail
      · cases hc
      · have := ih g htail hc
        exact ⟨List.mem_cons_of_mem _ this.1, this.2⟩
    · rw [if_neg h0] at hg
      cases hsplit : splitOnComma cs with
      | nil => exact absurd hsplit (splitOnComma_ne_nil cs)
      | cons g0 gs =>
        rw [hsplit] at hg
        rcases List.mem_cons.mp hg with rfl | htail
        · rcases List.mem_cons.mp hc with rfl | hcg
          · exact ⟨List.mem_cons_self _ _, h0⟩
          · have := ih g0 (by rw [hsplit]; exact List.mem_cons_self _ _) hcg
            exact ⟨List.mem_cons_of_mem _ this.1, this.2⟩
        · have := ih g (by rw [hsplit]; exact List.mem_cons_of_mem _ htail) hc
          exact ⟨List.mem_cons_of_mem _ this.1, this.2⟩

theorem findCloseParen_mem (l inner : List Char) (h : findCloseParen l = some inner)
    (c : Char) (hc : c ∈ inner) : c ≠ ')' ∧ c ≠ '\n' := by
  induction l generalizing inner with
  | nil => simp [findCloseParen] at h
  | cons c0 cs ih =>
    unfold findCloseParen at h
    by_cases h1 : c0 = ')'
    · rw [if_pos h1] at h
      cases h
      cases hc
    · rw [if_neg h1] at h
      by_cases h2 : c0 = '\n'
      · rw [if_pos h2] at h; cases h
      · rw [if_neg h2] at h
        cases hf : findCloseParen cs with
        | none => rw [hf] at h; cases h
        | some i =>
          rw [hf] at h
          simp at h
          rw [← h] at hc
          rcases List.mem_cons.mp hc with rfl | hci
          · exact ⟨h1, h2⟩
          · exact ih i hf hci

theorem mem_stripChars (l : List Char) (c : Char) (h : c ∈ stripChars l) : c ∈ l := by
  rw [stripChars_eq_rdropWhile] at h
  have h1 : c ∈ (l.dropWhile wsChar) :=
    (List.rdropWhile_prefix wsChar (l.dropWhile wsChar)).sublist.mem h
  exact (List.dropWhile_sublist wsChar).mem h1

theorem parseCore_some (cs w inner : List Char) (h : parseCore cs = some (w, inner)) :
    w = cs.takeWhile wordChar ∧ w ≠ [] ∧
      findCloseParen (cs.dropWhile wordChar).tail = some inner := by
  unfold parseCore at h
  by_cases h1 : (cs.dropWhile wordChar).head? = some '('
  · rw [if_pos h1] at h
    by_cases h2 : (cs.takeWhile wordChar).isEmpty
    · rw [if_pos h2] at h; cases h
    · rw [if_neg h2] at h
      cases hf : findCloseParen (cs.dropWhile wordChar).tail with
      | none => rw [hf] at h; cases h
      | some i =>
        rw [hf] at h
        simp at h
        refine ⟨h.1.symm, ?_, by rw [h.2]⟩
        rw [h.1] at h2
        simpa using h2
  · rw [if_neg h1] at h
    cases h

theorem parse_fact_destruct (s p : String) (args : List String)
    (h : parse_fact s = (p, args)) (hne : args ≠ []) :
    ∃ w inner, parseCore s.data = some (w, inner) ∧ inner ≠ [] ∧ p = String.mk w ∧
      args = (splitOnComma inner).map (fun g => String.mk (stripChars g)) := by
  unfold parse_fact at h
  cases hc : parseCore s.data with
  | none =>
    rw [hc] at h
    unfold parseTail at h
    cases h
    exact absurd rfl hne
  | some wi =>
    obtain ⟨w, inner⟩ := wi
    rw [hc] at h
    simp only [parseTail] at h
    by_cases hi : inner.isEmpty
    · rw [if_pos hi] at h; cases h; exact absurd rfl hne
    · rw [if_neg hi] at h
      cases h
      exact ⟨w, inner, rfl, by simpa using hi, rfl, rfl⟩

/-- When the parsed argument list is nonempty the parsed predicate is a
nonempty run of word characters. -/
theorem parse_pred_word (s p : String) (args : List String)
    (h : parse_fact s = (p, args)) (hne : args ≠ []) :
    p.data ≠ [] ∧ ∀ c ∈ p.data, wordChar c = true := by
  obtain ⟨w, inner, hcore, hine, hp, hargs⟩ := parse_fact_destruct s p args h hne
  obtain ⟨hw, hwne, _⟩ := parseCore_some s.data w inner hcore
  constructor
  · rw [hp]; simpa using hwne
  · intro c hc
    rw [hp] at hc
    rw [hw] at hc
    exact List.mem_takeWhile_imp hc

/-- Every parsed argument is comma-free, close-parenthesis-free,
newline-free and whitespace-stripped. -/
theorem parse_args_clean (s p : String) (args : List String)
    (h : parse_fact s = (p, args)) :
    ∀ a ∈ args, (∀ c ∈ a.data, c ≠ ',' ∧ c ≠ ')' ∧ c ≠ '\n') ∧
      stripChars a.data = a.data := by
  intro a ha
  have hne : args ≠ [] := by rintro rfl; cases ha
  obtain ⟨w, inner, hcore, hine, hp, hargs⟩ := parse_fact_destruct s p args h hne
  obtain ⟨hw, hwne, hfind⟩ := parseCore_some s.data w inner hcore
  rw [hargs] at ha
  obtain ⟨g, hg, rfl⟩ := List.mem_map.mp ha
  constructor
  · intro c hc
    have hcg : c ∈ g := mem_stripChars g c hc
    have h1 := splitOnComma_mem inner g hg c hcg
    have h2 := findCloseParen_mem _ inner hfind c h1.1
    exact ⟨h1.2, h2.1, h2.2⟩
  · exact stripChars_idem g

/-- A parsed zero-argument predicate re-parses to itself with no
arguments. -/
theorem parse_pred_self (s p : String) (h : parse_fact s = (p, [])) :
    parse_fact p = (p, []) := by
  unfold parse_fact at h
  cases hc : parseCore s.data with
  | none =>
    rw [hc] at h
    unfold parseTail at h
    cases h
    unfold parse_fact
    rw [hc]
    rfl
  | some wi =>
    obtain ⟨w, inner⟩ := wi
    rw [hc] at h
    simp only [parseTail] at h
    by_cases hi : inner.isEmpty
    · rw [if_pos hi] at h
      cases h
      obtain ⟨hw, hwne, _⟩ := parseCore_some s.data w inner hc
      apply parse_fact_word
      intro c hcm
      rw [hw] at hcm
      exact List.mem_takeWhile_imp hcm
    · rw [if_neg hi] at h
      exfalso
      have h2 : (splitOnComma inner).map (fun g => String.mk (stripChars g)) = [] :=
        (congrArg Prod.snd h)
      exact absurd (List.map_eq_nil_iff.mp h2) (splitOnComma_ne_nil inner)

/-! ## C2: the unifier's contract -/

/-- Predicate: `s2` preserves every binding of `s1`. -/
def Extends (s1 s2 : Subst) : Prop :=
  ∀ k v, dictGet s1 k = some v → dictGet s2 k = some v

theorem extends_refl (s : Subst) : Extends s s := fun _ _ h => h

theorem extends_trans {s1 s2 s3 : Subst} (h1 : Extends s1 s2) (h2 : Extends s2 s3) :
    Extends s1 s3 := fun k v h => h2 k v (h1 k v h)

theorem dictGet_insert (d : Subst) (k v k' : String) :
    dictGet (dictInsert d k v) k' = if k = k' then some v else dictGet d k' := by
  induction d with
  | nil => by_cases h : k = k' <;> simp [dictInsert, dictGet, h]
  | cons kv rest ih =>
    obtain ⟨k0, v0⟩ := kv
    by_cases h0 : k0 = k
    · subst h0
      by_cases h1 : k0 = k'
      · subst h1; simp [dictInsert, dictGet]
      · simp [dictInsert, dictGet, h1]
    · by_cases h1 : k0 = k'
      · subst h1
        have hkk : ¬(k = k0) := fun he => h0 he.symm
        simp [dictInsert, dictGet, h0, hkk, ih]
      · simp [dictInsert, dictGet, h0, h1, ih]

theorem extends_insert (sub : Subst) (p f : String) (hg : dictGet sub p = none) :
    Extends sub (dictInsert sub p f) := by
  intro k v h
  rw [dictGet_insert]
  by_cases hpk : p = k
  · subst hpk; rw [hg] at h; cases h
  · rw [if_neg hpk]; exact h

theorem varName_ne_constName (p f : String) (hp : isVarName p = true)
    (hf : isConstName f = true) : p ≠ f := by
  rintro rfl
  unfold isVarName at hp
  unfold isConstName at hf
  cases ht : p.data with
  | nil => rw [ht] at hp; simp at hp
  | cons c u =>
    rw [ht] at hp hf
    simp at hp hf
    simp [hp] at hf

theorem constName_data_ne_nil (a : String) (h : isConstName a = true) : a.data ≠ [] := by
  unfold isConstName at h
  cases ht : a.data with
  | nil => rw [ht] at h; simp at h
  | cons c u => simp

theorem map_resolve_of_zip (s' : Subst) (pargs fargs : List String)
    (hlen : pargs.length = fargs.length)
    (h : ∀ pf ∈ pargs.zip fargs, resolve s' pf.1 = pf.2) :
    pargs.map (resolve s') = fargs := by
  induction pargs generalizing fargs with
  | nil => cases fargs with | nil => rfl | cons b u => simp at hlen
  | cons a t ih =>
    cases fargs with
    | nil => simp at hlen
    | cons b u =>
      have hh := h (a, b) (by rw [List.zip_cons_cons]; exact List.mem_cons_self _ _)
      have htail := ih u (by simpa using hlen)
        (fun pf hpf => h pf (by rw [List.zip_cons_cons]; exact List.mem_cons_of_mem _ hpf))
      simp only [List.map_cons]
      rw [hh, htail]

theorem zip_resolve_of_map (s' : Subst) (pargs fargs : List String)
    (h : pargs.map (resolve s') = fargs) :
    ∀ pf ∈ pargs.zip fargs, resolve s' pf.1 = pf.2 := by
  induction pargs generalizing fargs with
  | nil =>
    subst h
    intro pf hpf
    simp at hpf
  | cons a t ih =>
    subst h
    intro pf hpf
    rw [List.map_cons, List.zip_cons_cons] at hpf
    rcases List.mem_cons.mp hpf with rfl | htail
    · rfl
    · exact ih (t.map (resolve s')) rfl pf htail

/-- The joint hypothesis on the zipped argument pairs: pattern arguments
are nonempty strings, fact arguments are constant names. -/
def PairsHyp (pairs : List (String × String)) : Prop :=
  ∀ pf ∈ pairs, pf.1.data ≠ [] ∧ isConstName pf.2 = true

/-- Totality of the `unify` argument loop on engine-shaped inputs: no
`IndexError` is possible. -/
theorem unifyPairs_total (pairs : List (String × String)) (sub : Subst)
    (hp : PairsHyp pairs) (hs : CleanSub sub) :
    ∃ r, unifyPairs pairs sub = .ok r := by
  induction pairs generalizing sub with
  | nil => exact ⟨some sub, rfl⟩
  | cons pf rest ih =>
    obtain ⟨p, f⟩ := pf
    have hph := hp (p, f) (List.mem_cons_self _ _)
    have hpr : PairsHyp rest := fun pf hpf => hp pf (List.mem_cons_of_mem _ hpf)
    rcases varName_or_constName_or_empty p with hv | hv | hv
    · cases hg : dictGet sub p with
      | none =>
        have hr : resolve sub p = p := by unfold resolve; rw [hg]; rfl
        obtain ⟨r, hrec⟩ := ih (dictInsert sub p f) hpr
          (cleanSub_insert sub hs p f hv hph.2)
        exact ⟨r, by simp only [unifyPairs, hr, is_variable_of_varName p hv]; exact hrec⟩
      | some v =>
        have hr : resolve sub p = v := by unfold resolve; rw [hg]; rfl
        have hvc := (cleanSub_get sub hs p v hg).2
        by_cases hvf : v = f
        · obtain ⟨r, hrec⟩ := ih sub hpr hs
          refine ⟨r, ?_⟩
          simp only [unifyPairs, hr, is_variable_of_varName p hv,
            is_variable_of_constName v hvc]
          rw [if_neg (by simpa using hvf)]
          exact hrec
        · refine ⟨none, ?_⟩
          simp only [unifyPairs, hr, is_variable_of_varName p hv,
            is_variable_of_constName v hvc]
          rw [if_pos (by simpa using hvf)]
    · have hg : dictGet sub p = none :=
        cleanSub_get_none sub hs p (constName_not_varName p hv)
      have hr : resolve sub p = p := by unfold resolve; rw [hg]; rfl
      by_cases hvf : p = f
      · obtain ⟨r, hrec⟩ := ih sub hpr hs
        refine ⟨r, ?_⟩
        simp only [unifyPairs, hr, is_variable_of_constName p hv]
        rw [if_neg (by simpa using hvf)]
        exact hrec
      · refine ⟨none, ?_⟩
        simp only [unifyPairs, hr, is_variable_of_constName p hv]
        rw [if_pos (by simpa using hvf)]
    · exact absurd hv hph.1

/-- Success structure of the `unify` argument loop: the result extends
the input substitution, stays clean, resolves every pattern argument to
the paired fact argument, and binds only previously unbound pattern
variables to fact arguments. -/
theorem unifyPairs_some (pairs : List (String × String)) (sub s' : Subst)
    (hp : PairsHyp pairs) (hs : CleanSub sub)
    (h : unifyPairs pairs sub = .ok (some s')) :
    Extends sub s' ∧ CleanSub s' ∧ (∀ pf ∈ pairs, resolve s' pf.1 = pf.2) ∧
      (∀ k, dictGet sub k = none → ∀ v, dictGet s' k = some v →
        isVarName k = true ∧ k ∈ pairs.map Prod.fst ∧ v ∈ pairs.map Prod.snd) := by
  induction pairs generalizing sub with
  | nil =>
    simp only [unifyPairs, Except.ok.injEq, Option.some.injEq] at h
    subst h
    refine ⟨extends_refl sub, hs, by simp, ?_⟩
    intro k hk v hv
    rw [hk] at hv
    cases hv
  | cons pf rest ih =>
    obtain ⟨p, f⟩ := pf
    have hph := hp (p, f) (List.mem_cons_self _ _)
    have hpr : PairsHyp rest := fun pf hpf => hp pf (List.mem_cons_of_mem _ hpf)
    rcases varName_or_constName_or_empty p with hv | hv | hv
    · cases hg : dictGet sub p with
      | none =>
        have hr : resolve sub p = p := by unfold resolve; rw [hg]; rfl
        simp only [unifyPairs, hr, is_variable_of_varName p hv] at h
        have hclean' := cleanSub_insert sub hs p f hv hph.2
        obtain ⟨hext', hclean, hall, hnew⟩ := ih (dictInsert sub p f) hpr hclean' h
        have hsubp : dictGet (dictInsert sub p f) p = some f := by
          rw [dictGet_insert, if_pos rfl]
        refine ⟨extends_trans (extends_insert sub p f hg) hext', hclean, ?_, ?_⟩
        · intro pf hpf
          rcases List.mem_cons.mp hpf with rfl | htail
          · show resolve s' p = f
            unfold resolve
            rw [hext' p f hsubp]
            rfl
          · exact hall pf htail
        · intro k hk v hvv
          by_cases hkp : k = p
          · subst hkp
            have : dictGet s' k = some f := hext' k f hsubp
            rw [hvv] at this
            cases this
            exact ⟨hv, by simp, by simp⟩
          · have hk' : dictGet (dictInsert sub p f) k = none := by
              rw [dictGet_insert, if_neg (fun he => hkp he.symm)]
              exact hk
            obtain ⟨h1, h2, h3⟩ := hnew k hk' v hvv
            exact ⟨h1, by simp [h2], by simp [h3]⟩
      | some v =>
        have hr : resolve sub p = v := by unfold resolve; rw [hg]; rfl
        have hvc := (cleanSub_get sub hs p v hg).2
        simp only [unifyPairs, hr, is_variable_of_varName p hv,
          is_variable_of_constName v hvc] at h
        by_cases hvf : v = f
        · rw [if_neg (by simpa using hvf)] at h
          obtain ⟨hext, hclean, hall, hnew⟩ := ih sub hpr hs h
          refine ⟨hext, hclean, ?_, ?_⟩
          · intro pf hpf
            rcases List.mem_cons.mp hpf with rfl | htail
            · show resolve s' p = f
              unfold resolve
              rw [hext p v hg, ← hvf]
              rfl
            · exact hall pf htail
          · intro k hk v' hvv
            obtain ⟨h1, h2, h3⟩ := hnew k hk v' hvv
            exact ⟨h1, by simp [h2], by simp [h3]⟩
        · rw [if_pos (by simpa using hvf)] at h
          exact absurd (Except.ok.inj h) (by simp)
    · have hg : dictGet sub p = none :=
        cleanSub_get_none sub hs p (constName_not_varName p hv)
      have hr : resolve sub p = p := by unfold resolve; rw [hg]; rfl
      simp only [unifyPairs, hr, is_variable_of_constName p hv] at h
      by_cases hvf : p = f
      · rw [if_neg (by simpa using hvf)] at h
        obtain ⟨hext, hclean, hall, hnew⟩ := ih sub hpr hs h
        refine ⟨hext, hclean, ?_, ?_⟩
        · intro pf hpf
          rcases List.mem_cons.mp hpf with rfl | htail
          · show resolve s' p = f
            have hgs : dictGet s' p = none :=
              cleanSub_get_none s' hclean p (constName_not_varName p hv)
            unfold resolve
            rw [hgs, ← hvf]
            rfl
          · exact hall pf htail
        · intro k hk v' hvv
          obtain ⟨h1, h2, h3⟩ := hnew k hk v' hvv
          exact ⟨h1, by simp [h2], by simp [h3]⟩
      · rw [if_pos (by simpa using hvf)] at h
        exact absurd (Except.ok.inj h) (by simp)
    · simp only [unifyPairs, is_variable_of_empty p hv] at h
      cases h

/-- Failure completeness of the `unify` argument loop: when it returns
`None`, no clean extension of the input substitution resolves every
pattern argument to its paired fact argument. -/
theorem unifyPairs_none (pairs : List (String × String)) (sub : Subst)
    (hp : PairsHyp pairs) (hs : CleanSub sub)
    (h : unifyPairs pairs sub = .ok none) :
    ∀ s', Extends sub s' → CleanSub s' → ∃ pf ∈ pairs, resolve s' pf.1 ≠ pf.2 := by
  induction pairs generalizing sub with
  | nil => simp only [unifyPairs] at h; exact absurd (Except.ok.inj h) (by simp)
  | cons pf rest ih =>
    obtain ⟨p, f⟩ := pf
    have hph := hp (p, f) (List.mem_cons_self _ _)
    have hpr : PairsHyp rest := fun pf hpf => hp pf (List.mem_cons_of_mem _ hpf)
    rcases varName_or_constName_or_empty p with hv | hv | hv
    · cases hg : dictGet sub p with
      | none =>
        have hr : resolve sub p = p := by unfold resolve; rw [hg]; rfl
        simp only [unifyPairs, hr, is_variable_of_varName p hv] at h
        intro s' hext hclean
        by_cases hres : resolve s' p = f
        · have hext' : Extends (dictInsert sub p f) s' := by
            intro k v hkv
            rw [dictGet_insert] at hkv
            by_cases hkp : p = k
            · subst hkp
              rw [if_pos rfl] at hkv
              cases hkv
              cases hgs : dictGet s' p with
              | none =>
                exfalso
                unfold resolve at hres
                rw [hgs] at hres
                simp only [Option.getD_none] at hres
                exact varName_ne_constName p f hv hph.2 hres
              | some w =>
                unfold resolve at hres
                rw [hgs] at hres
                simp only [Option.getD_some] at hres
                rw [hres]
            · rw [if_neg hkp] at hkv
              exact hext k v hkv
          obtain ⟨pf, hpf, hfail⟩ := ih (dictInsert sub p f)
            hpr (cleanSub_insert sub hs p f hv hph.2) h s' hext' hclean
          exact ⟨pf, List.mem_cons_of_mem _ hpf, hfail⟩
        · exact ⟨(p, f), List.mem_cons_self _ _, hres⟩
      | some v =>
        have hr : resolve sub p = v := by unfold resolve; rw [hg]; rfl
        have hvc := (cleanSub_get sub hs p v hg).2
        simp only [unifyPairs, hr, is_variable_of_varName p hv,
          is_variable_of_constName v hvc] at h
        by_cases hvf : v = f
        · rw [if_neg (by simpa using hvf)] at h
          intro s' hext hclean
          obtain ⟨pf, hpf, hfail⟩ := ih sub hpr hs h s' hext hclean
          exact ⟨pf, List.mem_cons_of_mem _ hpf, hfail⟩
        · intro s' hext hclean
          refine ⟨(p, f), List.mem_cons_self _ _, ?_⟩
          show resolve s' p ≠ f
          unfold resolve
          rw [hext p v hg, Option.getD_some]
          exact hvf
    · have hg : dictGet sub p = none :=
        cleanSub_get_none sub hs p (constName_not_varName p hv)
      have hr : resolve sub p = p := by unfold resolve; rw [hg]; rfl
      simp only [unifyPairs, hr, is_variable_of_constName p hv] at h
      by_cases hvf : p = f
      · rw [if_neg (by simpa using hvf)] at h
        intro s' hext hclean
        obtain ⟨pf, hpf, hfail⟩ := ih sub hpr hs h s' hext hclean
        exact ⟨pf, List.mem_cons_of_mem _ hpf, hfail⟩
      · intro s' hext hclean
        refine ⟨(p, f), List.mem_cons_self _ _, ?_⟩
        show resolve s' p ≠ f
        have hgs : dictGet s' p = none :=
          cleanSub_get_none s' hclean p (constName_not_varName p hv)
        unfold resolve
        rw [hgs]
        exact hvf
    · exact absurd hv hph.1

/-- Re-rendering a parsed fact's own predicate and arguments and parsing
again gives the same parse (the fact's canonical form re-parses). -/
theorem render_fact_args_reparse (fact : String)
    (hfargs : ∀ a ∈ (parse_fact fact).2, isConstName a = true) :
    parse_fact (renderFact (parse_fact fact).1 (parse_fact fact).2) = parse_fact fact := by
  cases hfa : (parse_fact fact).2 with
  | nil =>
    have heta : parse_fact fact = ((parse_fact fact).1, []) := by rw [← hfa]
    have hself := parse_pred_self fact (parse_fact fact).1 heta
    have hrend : renderFact (parse_fact fact).1 [] = (parse_fact fact).1 := by
      unfold renderFact
      simp
    rw [hrend, hself, heta]
  | cons b u =>
    have hword := parse_pred_word fact (parse_fact fact).1 (parse_fact fact).2 rfl
      (by rw [hfa]; simp)
    have hcleanA := parse_args_clean fact (parse_fact fact).1 (parse_fact fact).2 rfl
    have hrt := parse_renderFact (parse_fact fact).1 (b :: u) (by simp) hword
      (by
        intro a ha
        have ha' : a ∈ (parse_fact fact).2 := by rw [hfa]; exact ha
        exact ⟨constName_data_ne_nil a (hfargs a ha'), (hcleanA a ha').1,
          (hcleanA a ha').2⟩)
    rw [hrt, show parse_fact fact = ((parse_fact fact).1, (parse_fact fact).2) from rfl, hfa]

/-- A clean extension of `sub` under which the pattern arguments resolve
position-wise to the fact arguments: the declarative matching condition. -/
def Matchable (sub : Subst) (pargs fargs : List String) : Prop :=
  ∃ s', Extends sub s' ∧ CleanSub s' ∧ pargs.map (resolve s') = fargs

/-- Claim C2, counterexample: `unify` does not always return the input
substitution "extended with bindings for the unbound variables": with
input substitution `{x ↦ y}` (a variable bound to a variable, which the
data model's Substitution type permits), pattern `P(x)` and fact `P(A)`,
the week7 `unify` succeeds but *rebinds* the already-bound `x` from `y`
to `A`, so the input binding of `x` is not preserved. -/
theorem unify_rebinds_bound_variable :
    unify "P(x)" "P(A)" [("x", "y")] = .ok (some [("x", "A")]) ∧
      dictGet [("x", "y")] "x" = some "y" ∧
      dictGet [("x", "A")] "x" = some "A" ∧ ("y" : String) ≠ "A" := by
  decide

/-- Claim C2, amended. For every premise pattern whose parsed arguments are
nonempty, every ground fact whose parsed arguments are constant names,
and every substitution mapping variable names to constant names (the only
substitutions the engine builds): `unify` returns `None` exactly when the
predicate names differ, the argument counts differ, or no clean extension
of the substitution resolves the pattern arguments position-wise to the
fact arguments (i.e. some pattern argument resolves to a constant
different from the corresponding fact argument); otherwise it returns the
input substitution extended with bindings for previously unbound pattern
variables, and applying the returned substitution to the pattern yields a
fact with the same predicate and the same argument list as the given
fact. -/
theorem unify_spec (pattern fact : String) (sub : Subst)
    (hpargs : ∀ a ∈ (parse_fact pattern).2, a.data ≠ [])
    (hfargs : ∀ a ∈ (parse_fact fact).2, isConstName a = true)
    (hs : CleanSub sub) :
    (unify pattern fact sub = .ok none ↔
      ((parse_fact pattern).1 ≠ (parse_fact fact).1 ∨
        (parse_fact pattern).2.length ≠ (parse_fact fact).2.length ∨
        ¬ Matchable sub (parse_fact pattern).2 (parse_fact fact).2)) ∧
    (∀ s', unify pattern fact sub = .ok (some s') →
      Extends sub s' ∧
      (∀ k, dictGet sub k = none → ∀ v, dictGet s' k = some v →
        isVarName k = true ∧ k ∈ (parse_fact pattern).2) ∧
      parse_fact (apply_substitution pattern s') = parse_fact fact) := by
  by_cases hguard : (parse_fact pattern).1 ≠ (parse_fact fact).1 ∨
      (parse_fact pattern).2.length ≠ (parse_fact fact).2.length
  · have hu : unify pattern fact sub = .ok none := by
      unfold unify
      rw [if_pos hguard]
    constructor
    · constructor
      · intro _
        rcases hguard with h | h
        · exact .inl h
        · exact .inr (.inl h)
      · intro _
        exact hu
    · intro s' h'
      rw [hu] at h'
      exact absurd (Except.ok.inj h') (by simp)
  · have hpred : (parse_fact pattern).1 = (parse_fact fact).1 :=
      not_ne_iff.mp (not_or.mp hguard).1
    have hlen : (parse_fact pattern).2.length = (parse_fact fact).2.length :=
      not_ne_iff.mp (not_or.mp hguard).2
    have hu : unify pattern fact sub =
        unifyPairs ((parse_fact pattern).2.zip (parse_fact fact).2) sub := by
      unfold unify
      rw [if_neg hguard]
    have hph : PairsHyp ((parse_fact pattern).2.zip (parse_fact fact).2) := by
      intro pf hpf
      obtain ⟨h1, h2⟩ := List.of_mem_zip hpf
      exact ⟨hpargs pf.1 h1, hfargs pf.2 h2⟩
    constructor
    · rw [hu]
      constructor
      · intro hnone
        refine .inr (.inr ?_)
        rintro ⟨s', hext, hclean, hmap⟩
        obtain ⟨pf, hpf, hfail⟩ := unifyPairs_none _ sub hph hs hnone s' hext hclean
        exact hfail (zip_resolve_of_map s' _ _ hmap pf hpf)
      · intro hdisj
        rcases hdisj with h | h | hnm
        · exact absurd hpred h
        · exact absurd hlen h
        · obtain ⟨r, hr⟩ := unifyPairs_total _ sub hph hs
          cases r with
          | none => exact hr
          | some s' =>
            exfalso
            obtain ⟨hext, hclean, hall, _⟩ := unifyPairs_some _ sub s' hph hs hr
            exact hnm ⟨s', hext, hclean, map_resolve_of_zip s' _ _ hlen hall⟩
    · intro s' h'
      rw [hu] at h'
      obtain ⟨hext, hclean, hall, hnew⟩ := unifyPairs_some _ sub s' hph hs h'
      refine ⟨hext, ?_, ?_⟩
      · intro k hk v hv
        obtain ⟨h1, h2, _⟩ := hnew k hk v hv
        refine ⟨h1, ?_⟩
        obtain ⟨pf, hpf, rfl⟩ := List.mem_map.mp h2
        exact (List.of_mem_zip hpf).1
      · have hmap : (parse_fact pattern).2.map (resolve s') = (parse_fact fact).2 :=
          map_resolve_of_zip s' _ _ hlen hall
        have happ : apply_substitution pattern s' =
            renderFact (parse_fact pattern).1 (parse_fact fact).2 := by
          unfold apply_substitution
          rw [hmap]
        rw [happ, hpred]
        exact render_fact_args_reparse fact hfargs

/-- Witness for `unify_spec` at the pattern `Sells(p, q, r)`, the ground
fact `Sells(Robert,T1,A)` and the substitution `{p ↦ Robert}`. -/
theorem unify_spec_witness :
    (unify "Sells(p, q, r)" "Sells(Robert,T1,A)" [("p", "Robert")] = .ok none ↔
      ((parse_fact "Sells(p, q, r)").1 ≠ (parse_fact "Sells(Robert,T1,A)").1 ∨
        (parse_fact "Sells(p, q, r)").2.length ≠
          (parse_fact "Sells(Robert,T1,A)").2.length ∨
        ¬ Matchable [("p", "Robert")] (parse_fact "Sells(p, q, r)").2
            (parse_fact "Sells(Robert,T1,A)").2)) ∧
    (∀ s', unify "Sells(p, q, r)" "Sells(Robert,T1,A)" [("p", "Robert")] =
        .ok (some s') →
      Extends [("p", "Robert")] s' ∧
      (∀ k, dictGet [("p", "Robert")] k = none → ∀ v, dictGet s' k = some v →
        isVarName k = true ∧ k ∈ (parse_fact "Sells(p, q, r)").2) ∧
      parse_fact (apply_substitution "Sells(p, q, r)" s') =
        parse_fact "Sells(Robert,T1,A)") :=
  unify_spec "Sells(p, q, r)" "Sells(Robert,T1,A)" [("p", "Robert")]
    (by decide) (by decide) (by decide)

/-! ## C3: the premise solver -/

/-- String-level totality of `unify` on engine-shaped inputs. -/
theorem unify_total (pattern fact : String) (sub : Subst)
    (hpargs : ∀ a ∈ (parse_fact pattern).2, a.data ≠ [])
    (hfargs : ∀ a ∈ (parse_fact fact).2, isConstName a = true)
    (hs : CleanSub sub) : ∃ r, unify pattern fact sub = .ok r := by
  unfold unify
  by_cases hguard : (parse_fact pattern).1 ≠ (parse_fact fact).1 ∨
      (parse_fact pattern).2.length ≠ (parse_fact fact).2.length
  · exact ⟨none, by rw [if_pos hguard]⟩
  · rw [if_neg hguard]
    apply unifyPairs_total
    · intro pf hpf
      obtain ⟨h1, h2⟩ := List.of_mem_zip hpf
      exact ⟨hpargs pf.1 h1, hfargs pf.2 h2⟩
    · exact hs

/-- String-level success structure of `unify`. -/
theorem unify_some_struct (pattern fact : String) (sub s' : Subst)
    (hpargs : ∀ a ∈ (parse_fact pattern).2, a.data ≠ [])
    (hfargs : ∀ a ∈ (parse_fact fact).2, isConstName a = true)
    (hs : CleanSub sub)
    (h : unify pattern fact sub = .ok (some s')) :
    (parse_fact pattern).1 = (parse_fact fact).1 ∧
      Extends sub s' ∧ CleanSub s' ∧
      (parse_fact pattern).2.map (resolve s') = (parse_fact fact).2 ∧
      (∀ k, dictGet sub k = none → ∀ v, dictGet s' k = some v →
        isVarName k = true ∧ k ∈ (parse_fact pattern).2 ∧ v ∈ (parse_fact fact).2) := by
  unfold unify at h
  by_cases hguard : (parse_fact pattern).1 ≠ (parse_fact fact).1 ∨
      (parse_fact pattern).2.length ≠ (parse_fact fact).2.length
  · rw [if_pos hguard] at h
    exact absurd (Except.ok.inj h) (by simp)
  · rw [if_neg hguard] at h
    have hpred : (parse_fact pattern).1 = (parse_fact fact).1 :=
      not_ne_iff.mp (not_or.mp hguard).1
    have hlen : (parse_fact pattern).2.length = (parse_fact fact).2.length :=
      not_ne_iff.mp (not_or.mp hguard).2
    have hph : PairsHyp ((parse_fact pattern).2.zip (parse_fact fact).2) := by
      intro pf hpf
      obtain ⟨h1, h2⟩ := List.of_mem_zip hpf
      exact ⟨hpargs pf.1 h1, hfargs pf.2 h2⟩
    obtain ⟨hext, hclean, hall, hnew⟩ := unifyPairs_some _ sub s' hph hs h
    refine ⟨hpred, hext, hclean, map_resolve_of_zip s' _ _ hlen hall, ?_⟩
    intro k hk v hv
    obtain ⟨h1, h2, h3⟩ := hnew k hk v hv
    refine ⟨h1, ?_, ?_⟩
    · obtain ⟨pf, hpf, rfl⟩ := List.mem_map.mp h2
      exact (List.of_mem_zip hpf).1
    · obtain ⟨pf, hpf, rfl⟩ := List.mem_map.mp h3
      exact (List.of_mem_zip hpf).2

/-- Resolution of pattern arguments is stable under clean extension once
the arguments resolve to ground constants. -/
theorem map_resolve_stable (pargs fargs : List String) (s1 s : Subst)
    (hext : Extends s1 s) (hc1 : CleanSub s1) (hcs : CleanSub s)
    (hpa : ∀ a ∈ pargs, a.data ≠ [])
    (hfa : ∀ b ∈ fargs, isConstName b = true)
    (hmap : pargs.map (resolve s1) = fargs) :
    pargs.map (resolve s) = fargs := by
  have hlen : pargs.length = fargs.length := by rw [← hmap]; simp
  apply map_resolve_of_zip s _ _ hlen
  intro pf hpf
  have hz := zip_resolve_of_map s1 _ _ hmap pf hpf
  obtain ⟨hmem1, hmem2⟩ := List.of_mem_zip hpf
  rcases varName_or_constName_or_empty pf.1 with hv | hv | hv
  · cases hg : dictGet s1 pf.1 with
    | some v =>
      have hgs := hext pf.1 v hg
      show resolve s pf.1 = pf.2
      unfold resolve at hz ⊢
      rw [hgs, Option.getD_some]
      rw [hg, Option.getD_some] at hz
      exact hz
    | none =>
      exfalso
      unfold resolve at hz
      rw [hg, Option.getD_none] at hz
      exact varName_ne_constName pf.1 pf.2 hv (hfa pf.2 hmem2) hz
  · have hg1 : dictGet s1 pf.1 = none :=
      cleanSub_get_none s1 hc1 pf.1 (constName_not_varName _ hv)
    have hgs : dictGet s pf.1 = none :=
      cleanSub_get_none s hcs pf.1 (constName_not_varName _ hv)
    show resolve s pf.1 = pf.2
    unfold resolve at hz ⊢
    rw [hgs, Option.getD_none]
    rw [hg1, Option.getD_none] at hz
    exact hz
  · exact absurd hv (hpa pf.1 hmem1)

/-- The declarative set the premise solver enumerates: thread a
substitution through the premises in order, unifying each premise with
some fact of the knowledge base. -/
inductive Chains : List String → List String → Subst → Subst → Prop where
  | nil {kb : List String} {sub : Subst} : Chains [] kb sub sub
  | cons {p : String} {rest kb : List String} {f : String} {s0 s1 s : Subst} :
      f ∈ kb → unify p f s0 = .ok (some s1) → Chains rest kb s1 s →
      Chains (p :: rest) kb s0 s

/-- Every chained substitution extends its starting substitution and
stays clean. -/
theorem chains_extends (rest kb : List String) (s1 s : Subst)
    (hch : Chains rest kb s1 s)
    (hp : ∀ p ∈ rest, ∀ a ∈ (parse_fact p).2, a.data ≠ [])
    (hk : ∀ f ∈ kb, ∀ a ∈ (parse_fact f).2, isConstName a = true)
    (hc1 : CleanSub s1) : Extends s1 s ∧ CleanSub s := by
  induction rest generalizing s1 with
  | nil =>
    cases hch
    exact ⟨extends_refl _, hc1⟩
  | cons p rrest ih =>
    cases hch with
    | @cons _ _ _ f _ smid _ hf hu hch2 =>
      have hstruct := unify_some_struct p f s1 smid (hp p (List.mem_cons_self _ _))
        (hk f hf) hc1 hu
      obtain ⟨hext2, hclean2⟩ := ih smid hch2 (fun q hq => hp q (List.mem_cons_of_mem _ hq))
        hstruct.2.2.1
      exact ⟨extends_trans hstruct.2.1 hext2, hclean2⟩

/-- One successful unification step, transported to any clean extension
of its result: the final substitution still determines the fact used. -/
theorem chain_step_determines_fact (p f : String) (sub s1 s : Subst)
    (hpargs : ∀ a ∈ (parse_fact p).2, a.data ≠ [])
    (hf : ∀ a ∈ (parse_fact f).2, isConstName a = true)
    (hs : CleanSub sub)
    (hu : unify p f sub = .ok (some s1))
    (hext : Extends s1 s) (hcs : CleanSub s) :
    parse_fact f = ((parse_fact p).1, (parse_fact p).2.map (resolve s)) := by
  obtain ⟨hpred, _, hclean1, hmap, _⟩ := unify_some_struct p f sub s1 hpargs hf hs hu
  have hstable := map_resolve_stable (parse_fact p).2 (parse_fact f).2 s1 s hext hclean1 hcs
    hpargs hf hmap
  rw [hstable, hpred]

set_option maxHeartbeats 1000000 in
/-- Full characterization of `find_substitutions_for_premises`: it
returns (no exception) the list of exactly the chained substitutions,
each clean and extending the initial one, with no duplicates (given the
knowledge base is a set of distinct parsed facts), and of length at most
`|kb| ^ |premises|`. -/
theorem find_subs_full (premises kb : List String) :
    ∀ sub : Subst,
    (∀ p ∈ premises, ∀ a ∈ (parse_fact p).2, a.data ≠ []) →
    (∀ f ∈ kb, ∀ a ∈ (parse_fact f).2, isConstName a = true) →
    CleanSub sub →
    ∃ L, find_substitutions_for_premises premises kb sub = .ok L ∧
      (∀ s, s ∈ L ↔ Chains premises kb sub s) ∧
      (∀ s ∈ L, CleanSub s ∧ Extends sub s) ∧
      ((kb.map parse_fact).Nodup → L.Nodup) ∧
      L.length ≤ kb.length ^ premises.length := by
  induction premises with
  | nil =>
    intro sub hp hk hs
    refine ⟨[sub], rfl, ?_, ?_, fun _ => by simp, by simp⟩
    · intro s
      constructor
      · intro hmem
        rw [List.mem_singleton] at hmem
        subst hmem
        exact Chains.nil
      · intro hch
        cases hch
        exact List.mem_singleton.mpr rfl
    · intro s hmem
      rw [List.mem_singleton] at hmem
      subst hmem
      exact ⟨hs, extends_refl _⟩
  | cons p rest ih =>
    intro sub hp hk hs
    have hpargs : ∀ a ∈ (parse_fact p).2, a.data ≠ [] := hp p (List.mem_cons_self _ _)
    have hprest : ∀ q ∈ rest, ∀ a ∈ (parse_fact q).2, a.data ≠ [] :=
      fun q hq => hp q (List.mem_cons_of_mem _ hq)
    suffices hscan : ∀ kb' : List String,
        (∀ f ∈ kb', f ∈ kb) →
        ∃ L, fsStep p sub (find_substitutions_for_premises rest kb) kb' = .ok L ∧
          (∀ s, s ∈ L ↔ ∃ f ∈ kb', ∃ s1, unify p f sub = .ok (some s1) ∧
            Chains rest kb s1 s) ∧
          (∀ s ∈ L, CleanSub s ∧ Extends sub s) ∧
          ((kb.map parse_fact).Nodup → (kb'.map parse_fact).Nodup → L.Nodup) ∧
          L.length ≤ kb'.length * kb.length ^ rest.length by
      obtain ⟨L, hL, hiff, hcl, hnodup, hlen⟩ := hscan kb (fun f hf => hf)
      refine ⟨L, hL, ?_, hcl, fun hnd => hnodup hnd hnd, ?_⟩
      · intro s
        rw [hiff s]
        constructor
        · rintro ⟨f, hf, s1, hu, hch⟩
          exact Chains.cons hf hu hch
        · intro hch
          cases hch with
          | @cons _ _ _ f _ s1 _ hf hu hch2 => exact ⟨f, hf, s1, hu, hch2⟩
      · calc L.length ≤ kb.length * kb.length ^ rest.length := hlen
          _ = kb.length ^ (p :: rest).length := by rw [List.length_cons, pow_succ, mul_comm]
    intro kb'
    induction kb' with
    | nil =>
      intro _
      exact ⟨[], rfl, by simp, by simp, fun _ _ => List.nodup_nil, by simp⟩
    | cons f kb2 ihk =>
      intro hsub
      have hfk : f ∈ kb := hsub f (List.mem_cons_self _ _)
      have hfargs : ∀ a ∈ (parse_fact f).2, isConstName a = true := hk f hfk
      obtain ⟨L2, hL2, hiff2, hcl2, hnodup2, hlen2⟩ := ihk
        (fun g hg => hsub g (List.mem_cons_of_mem _ hg))
      obtain ⟨r, hr⟩ := unify_total p f sub hpargs hfargs hs
      cases r with
      | none =>
        refine ⟨L2, ?_, ?_, hcl2, ?_, ?_⟩
        · simp only [fsStep, hr]
          exact hL2
        · intro s
          rw [hiff2 s]
          constructor
          · rintro ⟨g, hg, s1, hu, hch⟩
            exact ⟨g, List.mem_cons_of_mem _ hg, s1, hu, hch⟩
          · rintro ⟨g, hg, s1, hu, hch⟩
            rcases List.mem_cons.mp hg with rfl | hg2
            · rw [hr] at hu
              exact absurd (Except.ok.inj hu) (by simp)
            · exact ⟨g, hg2, s1, hu, hch⟩
        · intro hnd hnd'
          rw [List.map_cons] at hnd'
          exact hnodup2 hnd (List.nodup_cons.mp hnd').2
        · calc L2.length ≤ kb2.length * kb.length ^ rest.length := hlen2
            _ ≤ (f :: kb2).length * kb.length ^ rest.length := by
                apply Nat.mul_le_mul_right
                simp
      | some s1 =>
        obtain ⟨hpred1, hext1, hclean1, hmap1, _⟩ :=
          unify_some_struct p f sub s1 hpargs hfargs hs hr
        obtain ⟨L1, hL1, hiff1, hcl1, hnodup1, hlen1⟩ := ih s1 hprest hk hclean1
        refine ⟨L1 ++ L2, ?_, ?_, ?_, ?_, ?_⟩
        · simp only [fsStep, hr, hL1, hL2]
        · intro s
          rw [List.mem_append, hiff1 s, hiff2 s]
          constructor
          · rintro (hch | ⟨g, hg, sg, hu, hch⟩)
            · exact ⟨f, List.mem_cons_self _ _, s1, hr, hch⟩
            · exact ⟨g, List.mem_cons_of_mem _ hg, sg, hu, hch⟩
          · rintro ⟨g, hg, sg, hu, hch⟩
            rcases List.mem_cons.mp hg with rfl | hg2
            · rw [hr] at hu
              have : s1 = sg := by
                have h1 := Except.ok.inj hu
                exact Option.some.inj h1
              subst this
              exact .inl hch
            · exact .inr ⟨g, hg2, sg, hu, hch⟩
        · intro s hmem
          rcases List.mem_append.mp hmem with h1 | h2
          · obtain ⟨hc, he⟩ := hcl1 s h1
            exact ⟨hc, extends_trans hext1 he⟩
          · exact hcl2 s h2
        · intro hnd hnd'
          rw [List.map_cons] at hnd'
          rw [List.nodup_append]
          refine ⟨hnodup1 hnd, hnodup2 hnd (List.nodup_cons.mp hnd').2, ?_⟩
          intro s hs1 hs2
          have hchain1 : Chains rest kb s1 s := (hiff1 s).mp hs1
          obtain ⟨g, hg2, sg, hug, hchg⟩ := (hiff2 s).mp hs2
          have hgk : g ∈ kb := hsub g (List.mem_cons_of_mem _ hg2)
          have hgargs : ∀ a ∈ (parse_fact g).2, isConstName a = true := hk g hgk
          obtain ⟨hext1s, hcleans⟩ := chains_extends rest kb s1 s hchain1 hprest hk hclean1
          obtain ⟨hpredg, hextg, hcleang, hmapg, _⟩ :=
            unify_some_struct p g sub sg hpargs hgargs hs hug
          obtain ⟨hextgs, _⟩ := chains_extends rest kb sg s hchg hprest hk hcleang
          have hdf := chain_step_determines_fact p f sub s1 s hpargs hfargs hs hr
            hext1s hcleans
          have hdg := chain_step_determines_fact p g sub sg s hpargs hgargs hs hug
            hextgs hcleans
          have hfg : parse_fact f = parse_fact g := by rw [hdf, hdg]
          have hginmap : parse_fact g ∈ kb2.map parse_fact :=
            List.mem_map_of_mem parse_fact hg2
          rw [← hfg] at hginmap
          exact (List.nodup_cons.mp hnd').1 hginmap
        · rw [List.length_append, List.length_cons]
          calc L1.length + L2.length
              ≤ kb.length ^ rest.length + kb2.length * kb.length ^ rest.length :=
                Nat.add_le_add hlen1 hlen2
            _ = (kb2.length + 1) * kb.length ^ rest.length := by ring
            _ = (kb2.length + 1) * kb.length ^ rest.length := rfl

/-- A data-model substitution (spec section 3): keys are variable names and
values are terms, where a term is a variable name or a constant name.
Unlike `CleanSub`, variable-valued bindings are allowed. -/
def SubstWF (s : Subst) : Prop :=
  ∀ kv ∈ s, isVarName kv.1 = true ∧ (isVarName kv.2 = true ∨ isConstName kv.2 = true)

instance (s : Subst) : Decidable (SubstWF s) := by
  unfold SubstWF; infer_instance

theorem substWF_get (sub : Subst) (hs : SubstWF sub) (k v : String)
    (h : dictGet sub k = some v) :
    isVarName k = true ∧ (isVarName v = true ∨ isConstName v = true) :=
  hs (k, v) (dictGet_mem sub k v h)

theorem substWF_get_none (sub : Subst) (hs : SubstWF sub) (k : String)
    (h : isVarName k = false) : dictGet sub k = none := by
  cases hg : dictGet sub k with
  | none => rfl
  | some v =>
    have := (substWF_get sub hs k v hg).1
    rw [h] at this
    cases this

theorem substWF_insert (sub : Subst) (hs : SubstWF sub) (k v : String)
    (hk : isVarName k = true) (hv : isVarName v = true ∨ isConstName v = true) :
    SubstWF (dictInsert sub k v) := by
  induction sub with
  | nil =>
    intro kv hkv
    simp only [dictInsert, List.mem_singleton] at hkv
    subst hkv
    exact ⟨hk, hv⟩
  | cons kv0 rest ih =>
    obtain ⟨k0, v0⟩ := kv0
    have h0 := hs (k0, v0) (List.mem_cons_self _ _)
    have hrest : SubstWF rest := fun kv hkv => hs kv (List.mem_cons_of_mem _ hkv)
    intro kv hkv
    unfold dictInsert at hkv
    by_cases hke : k0 = k
    · rw [if_pos hke] at hkv
      rcases List.mem_cons.mp hkv with rfl | htail
      · exact ⟨h0.1, hv⟩
      · exact hs kv (List.mem_cons_of_mem _ htail)
    · rw [if_neg hke] at hkv
      rcases List.mem_cons.mp hkv with rfl | htail
      · exact h0
      · exact ih hrest kv htail

/-- Persistence of constant-valued bindings: the week7 loop only ever
rebinds keys whose current value is a variable name, so a binding whose
value is a constant name survives every later step. -/
def ConstPersist (s1 s2 : Subst) : Prop :=
  ∀ k v, dictGet s1 k = some v → isConstName v = true → dictGet s2 k = some v

theorem constPersist_refl (s : Subst) : ConstPersist s s := fun _ _ h _ => h

theorem constPersist_trans {s1 s2 s3 : Subst} (h1 : ConstPersist s1 s2)
    (h2 : ConstPersist s2 s3) : ConstPersist s1 s3 :=
  fun k v h hc => h2 k v (h1 k v h hc) hc

/-- Totality of the `unify` argument loop on data-model substitutions: a
variable-valued binding is chased one step and rebound, a constant-valued
one compared; no `IndexError` is possible. -/
theorem unifyPairs_wf_total (pairs : List (String × String)) (sub : Subst)
    (hp : PairsHyp pairs) (hs : SubstWF sub) :
    ∃ r, unifyPairs pairs sub = .ok r := by
  induction pairs generalizing sub with
  | nil => exact ⟨some sub, rfl⟩
  | cons pf rest ih =>
    obtain ⟨p, f⟩ := pf
    have hph := hp (p, f) (List.mem_cons_self _ _)
    have hpr : PairsHyp rest := fun pf hpf => hp pf (List.mem_cons_of_mem _ hpf)
    rcases varName_or_constName_or_empty p with hv | hv | hv
    · cases hg : dictGet sub p with
      | none =>
        have hr : resolve sub p = p := by unfold resolve; rw [hg]; rfl
        obtain ⟨r, hrec⟩ := ih (dictInsert sub p f) hpr
          (substWF_insert sub hs p f hv (.inr hph.2))
        exact ⟨r, by simp only [unifyPairs, hr, is_variable_of_varName p hv]; exact hrec⟩
      | some v =>
        have hr : resolve sub p = v := by unfold resolve; rw [hg]; rfl
        rcases (substWF_get sub hs p v hg).2 with hvv | hvc
        · obtain ⟨r, hrec⟩ := ih (dictInsert sub p f) hpr
            (substWF_insert sub hs p f hv (.inr hph.2))
          refine ⟨r, ?_⟩
          simp only [unifyPairs, hr, is_variable_of_varName p hv,
            is_variable_of_varName v hvv]
          exact hrec
        · by_cases hvf : v = f
          · obtain ⟨r, hrec⟩ := ih sub hpr hs
            refine ⟨r, ?_⟩
            simp only [unifyPairs, hr, is_variable_of_varName p hv,
              is_variable_of_constName v hvc]
            rw [if_neg (by simpa using hvf)]
            exact hrec
          · refine ⟨none, ?_⟩
            simp only [unifyPairs, hr, is_variable_of_varName p hv,
              is_variable_of_constName v hvc]
            rw [if_pos (by simpa using hvf)]
    · have hg : dictGet sub p = none :=
        substWF_get_none sub hs p (constName_not_varName p hv)
      have hr : resolve sub p = p := by unfold resolve; rw [hg]; rfl
      by_cases hvf : p = f
      · obtain ⟨r, hrec⟩ := ih sub hpr hs
        refine ⟨r, ?_⟩
        simp only [unifyPairs, hr, is_variable_of_constName p hv]
        rw [if_neg (by simpa using hvf)]
        exact hrec
      · refine ⟨none, ?_⟩
        simp only [unifyPairs, hr, is_variable_of_constName p hv]
        rw [if_pos (by simpa using hvf)]
    · exact absurd hv hph.1

/-- Success structure of the `unify` argument loop over data-model
substitutions: the result is again a data-model substitution, every
constant-valued binding of the input survives unchanged, and every
pattern argument resolves to its paired fact argument under the result.
(The result need not extend the input: a variable-valued binding of a
pattern variable is overwritten with the fact argument.) -/
theorem unifyPairs_wf_some (pairs : List (String × String)) (sub s' : Subst)
    (hp : PairsHyp pairs) (hs : SubstWF sub)
    (h : unifyPairs pairs sub = .ok (some s')) :
    SubstWF s' ∧ ConstPersist sub s' ∧ (∀ pf ∈ pairs, resolve s' pf.1 = pf.2) := by
  induction pairs generalizing sub with
  | nil =>
    simp only [unifyPairs, Except.ok.injEq, Option.some.injEq] at h
    subst h
    exact ⟨hs, constPersist_refl sub, by simp⟩
  | cons pf rest ih =>
    obtain ⟨p, f⟩ := pf
    have hph := hp (p, f) (List.mem_cons_self _ _)
    have hpr : PairsHyp rest := fun pf hpf => hp pf (List.mem_cons_of_mem _ hpf)
    rcases varName_or_constName_or_empty p with hv | hv | hv
    · cases hg : dictGet sub p with
      | none =>
        have hr : resolve sub p = p := by unfold resolve; rw [hg]; rfl
        simp only [unifyPairs, hr, is_variable_of_varName p hv] at h
        have hwf1 := substWF_insert sub hs p f hv (.inr hph.2)
        obtain ⟨hwf, hcp1, hall⟩ := ih (dictInsert sub p f) hpr hwf1 h
        have hsubp : dictGet (dictInsert sub p f) p = some f := by
          rw [dictGet_insert, if_pos rfl]
        refine ⟨hwf, ?_, ?_⟩
        · intro k w hk hwc
          refine hcp1 k w ?_ hwc
          rw [dictGet_insert]
          by_cases hpk : p = k
          · subst hpk; rw [hg] at hk; cases hk
          · rw [if_neg hpk]; exact hk
        · intro pf hpf
          rcases List.mem_cons.mp hpf with rfl | htail
          · show resolve s' p = f
            unfold resolve
            rw [hcp1 p f hsubp hph.2]
            rfl
          · exact hall pf htail
      | some v =>
        have hr : resolve sub p = v := by unfold resolve; rw [hg]; rfl
        rcases (substWF_get sub hs p v hg).2 with hvv | hvc
        · simp only [unifyPairs, hr, is_variable_of_varName p hv,
            is_variable_of_varName v hvv] at h
          have hwf1 := substWF_insert sub hs p f hv (.inr hph.2)
          obtain ⟨hwf, hcp1, hall⟩ := ih (dictInsert sub p f) hpr hwf1 h
          have hsubp : dictGet (dictInsert sub p f) p = some f := by
            rw [dictGet_insert, if_pos rfl]
          refine ⟨hwf, ?_, ?_⟩
          · intro k w hk hwc
            refine hcp1 k w ?_ hwc
            rw [dictGet_insert]
            by_cases hpk : p = k
            · subst hpk
              rw [hg] at hk
              cases hk
              have hfalse := constName_not_varName v hwc
              simp [hvv] at hfalse
            · rw [if_neg hpk]; exact hk
          · intro pf hpf
            rcases List.mem_cons.mp hpf with rfl | htail
            · show resolve s' p = f
              unfold resolve
              rw [hcp1 p f hsubp hph.2]
              rfl
            · exact hall pf htail
        · simp only [unifyPairs, hr, is_variable_of_varName p hv,
            is_variable_of_constName v hvc] at h
          by_cases hvf : v = f
          · rw [if_neg (by simpa using hvf)] at h
            obtain ⟨hwf, hcp, hall⟩ := ih sub hpr hs h
            refine ⟨hwf, hcp, ?_⟩
            intro pf hpf
            rcases List.mem_cons.mp hpf with rfl | htail
            · show resolve s' p = f
              unfold resolve
              rw [hcp p v hg hvc, ← hvf]
              rfl
            · exact hall pf htail
          · rw [if_pos (by simpa using hvf)] at h
            exact absurd (Except.ok.inj h) (by simp)
    · have hg : dictGet sub p = none :=
        substWF_get_none sub hs p (constName_not_varName p hv)
      have hr : resolve sub p = p := by unfold resolve; rw [hg]; rfl
      simp only [unifyPairs, hr, is_variable_of_constName p hv] at h
      by_cases hvf : p = f
      · rw [if_neg (by simpa using hvf)] at h
        obtain ⟨hwf, hcp, hall⟩ := ih sub hpr hs h
        refine ⟨hwf, hcp, ?_⟩
        intro pf hpf
        rcases List.mem_cons.mp hpf with rfl | htail
        · show resolve s' p = f
          have hgs : dictGet s' p = none :=
            substWF_get_none s' hwf p (constName_not_varName p hv)
          unfold resolve
          rw [hgs, ← hvf]
          rfl
        · exact hall pf htail
      · rw [if_pos (by simpa using hvf)] at h
        exact absurd (Except.ok.inj h) (by simp)
    · simp only [unifyPairs, is_variable_of_empty p hv] at h
      cases h

/-- String-level totality of `unify` on data-model substitutions. -/
theorem unify_wf_total (pattern fact : String) (sub : Subst)
    (hpargs : ∀ a ∈ (parse_fact pattern).2, a.data ≠ [])
    (hfargs : ∀ a ∈ (parse_fact fact).2, isConstName a = true)
    (hs : SubstWF sub) : ∃ r, unify pattern fact sub = .ok r := by
  unfold unify
  by_cases hguard : (parse_fact pattern).1 ≠ (parse_fact fact).1 ∨
      (parse_fact pattern).2.length ≠ (parse_fact fact).2.length
  · exact ⟨none, by rw [if_pos hguard]⟩
  · rw [if_neg hguard]
    apply unifyPairs_wf_total
    · intro pf hpf
      obtain ⟨h1, h2⟩ := List.of_mem_zip hpf
      exact ⟨hpargs pf.1 h1, hfargs pf.2 h2⟩
    · exact hs

/-- String-level success structure of `unify` on data-model
substitutions. -/
theorem unify_wf_some (pattern fact : String) (sub s' : Subst)
    (hpargs : ∀ a ∈ (parse_fact pattern).2, a.data ≠ [])
    (hfargs : ∀ a ∈ (parse_fact fact).2, isConstName a = true)
    (hs : SubstWF sub)
    (h : unify pattern fact sub = .ok (some s')) :
    (parse_fact pattern).1 = (parse_fact fact).1 ∧
      SubstWF s' ∧ ConstPersist sub s' ∧
      (parse_fact pattern).2.map (resolve s') = (parse_fact fact).2 := by
  unfold unify at h
  by_cases hguard : (parse_fact pattern).1 ≠ (parse_fact fact).1 ∨
      (parse_fact pattern).2.length ≠ (parse_fact fact).2.length
  · rw [if_pos hguard] at h
    exact absurd (Except.ok.inj h) (by simp)
  · rw [if_neg hguard] at h
    have hpred : (parse_fact pattern).1 = (parse_fact fact).1 :=
      not_ne_iff.mp (not_or.mp hguard).1
    have hlen : (parse_fact pattern).2.length = (parse_fact fact).2.length :=
      not_ne_iff.mp (not_or.mp hguard).2
    have hph : PairsHyp ((parse_fact pattern).2.zip (parse_fact fact).2) := by
      intro pf hpf
      obtain ⟨h1, h2⟩ := List.of_mem_zip hpf
      exact ⟨hpargs pf.1 h1, hfargs pf.2 h2⟩
    obtain ⟨hwf, hcp, hall⟩ := unifyPairs_wf_some _ sub s' hph hs h
    exact ⟨hpred, hwf, hcp, map_resolve_of_zip s' _ _ hlen hall⟩

/-- Resolution of pattern arguments is stable under persistence of
constant-valued bindings once the arguments resolve to ground
constants. -/
theorem map_resolve_stable_wf (pargs fargs : List String) (s1 s : Subst)
    (hcp : ConstPersist s1 s) (h1 : SubstWF s1) (hsw : SubstWF s)
    (hpa : ∀ a ∈ pargs, a.data ≠ [])
    (hfa : ∀ b ∈ fargs, isConstName b = true)
    (hmap : pargs.map (resolve s1) = fargs) :
    pargs.map (resolve s) = fargs := by
  have hlen : pargs.length = fargs.length := by rw [← hmap]; simp
  apply map_resolve_of_zip s _ _ hlen
  intro pf hpf
  have hz := zip_resolve_of_map s1 _ _ hmap pf hpf
  obtain ⟨hmem1, hmem2⟩ := List.of_mem_zip hpf
  rcases varName_or_constName_or_empty pf.1 with hv | hv | hv
  · cases hg : dictGet s1 pf.1 with
    | some v =>
      have hveq : v = pf.2 := by
        unfold resolve at hz
        rw [hg, Option.getD_some] at hz
        exact hz
      subst hveq
      have hgs : dictGet s pf.1 = some pf.2 := hcp pf.1 pf.2 hg (hfa pf.2 hmem2)
      show resolve s pf.1 = pf.2
      unfold resolve
      rw [hgs]
      rfl
    | none =>
      exfalso
      unfold resolve at hz
      rw [hg, Option.getD_none] at hz
      exact varName_ne_constName pf.1 pf.2 hv (hfa pf.2 hmem2) hz
  · have hg1 : dictGet s1 pf.1 = none :=
      substWF_get_none s1 h1 pf.1 (constName_not_varName _ hv)
    have hgs : dictGet s pf.1 = none :=
      substWF_get_none s hsw pf.1 (constName_not_varName _ hv)
    show resolve s pf.1 = pf.2
    unfold resolve at hz ⊢
    rw [hgs, Option.getD_none]
    rw [hg1, Option.getD_none] at hz
    exact hz
  · exact absurd hv (hpa pf.1 hmem1)

/-- Every chained substitution starting from a data-model substitution is
a data-model substitution, and constant-valued bindings of the start
survive into it. -/
theorem chains_wf (rest kb : List String) (s1 s : Subst)
    (hch : Chains rest kb s1 s)
    (hp : ∀ p ∈ rest, ∀ a ∈ (parse_fact p).2, a.data ≠ [])
    (hk : ∀ f ∈ kb, ∀ a ∈ (parse_fact f).2, isConstName a = true)
    (h1 : SubstWF s1) : SubstWF s ∧ ConstPersist s1 s := by
  induction rest generalizing s1 with
  | nil =>
    cases hch
    exact ⟨h1, constPersist_refl _⟩
  | cons p rrest ih =>
    cases hch with
    | @cons _ _ _ f _ smid _ hf hu hch2 =>
      have hstruct := unify_wf_some p f s1 smid (hp p (List.mem_cons_self _ _))
        (hk f hf) h1 hu
      obtain ⟨hwf2, hcp2⟩ := ih smid hch2 (fun q hq => hp q (List.mem_cons_of_mem _ hq))
        hstruct.2.1
      exact ⟨hwf2, constPersist_trans hstruct.2.2.1 hcp2⟩

/-- One successful unification step, transported along persistence of
constant-valued bindings: the final substitution still determines the
fact used, even when variable-valued bindings were overwritten. -/
theorem chain_step_determines_fact_wf (p f : String) (sub s1 s : Subst)
    (hpargs : ∀ a ∈ (parse_fact p).2, a.data ≠ [])
    (hf : ∀ a ∈ (parse_fact f).2, isConstName a = true)
    (hs : SubstWF sub)
    (hu : unify p f sub = .ok (some s1))
    (hcp : ConstPersist s1 s) (hsw : SubstWF s) :
    parse_fact f = ((parse_fact p).1, (parse_fact p).2.map (resolve s)) := by
  obtain ⟨hpred, hwf1, _, hmap⟩ := unify_wf_some p f sub s1 hpargs hf hs hu
  have hstable := map_resolve_stable_wf (parse_fact p).2 (parse_fact f).2 s1 s hcp hwf1 hsw
    hpargs hf hmap
  rw [hstable, hpred]

set_option maxHeartbeats 1000000 in
/-- Full characterization of `find_substitutions_for_premises` from any
data-model starting substitution: it returns (no exception) the list of
exactly the chained substitutions, each again of data-model shape with
constant-valued bindings of the start preserved, with no duplicates
(given the knowledge base is a set of distinct parsed facts), and of
length at most `|kb| ^ |premises|`. -/
theorem find_subs_full_wf (premises kb : List String) :
    ∀ sub : Subst,
    (∀ p ∈ premises, ∀ a ∈ (parse_fact p).2, a.data ≠ []) →
    (∀ f ∈ kb, ∀ a ∈ (parse_fact f).2, isConstName a = true) →
    SubstWF sub →
    ∃ L, find_substitutions_for_premises premises kb sub = .ok L ∧
      (∀ s, s ∈ L ↔ Chains premises kb sub s) ∧
      (∀ s ∈ L, SubstWF s ∧ ConstPersist sub s) ∧
      ((kb.map parse_fact).Nodup → L.Nodup) ∧
      L.length ≤ kb.length ^ premises.length := by
  induction premises with
  | nil =>
    intro sub hp hk hs
    refine ⟨[sub], rfl, ?_, ?_, fun _ => by simp, by simp⟩
    · intro s
      constructor
      · intro hmem
        rw [List.mem_singleton] at hmem
        subst hmem
        exact Chains.nil
      · intro hch
        cases hch
        exact List.mem_singleton.mpr rfl
    · intro s hmem
      rw [List.mem_singleton] at hmem
      subst hmem
      exact ⟨hs, constPersist_refl _⟩
  | cons p rest ih =>
    intro sub hp hk hs
    have hpargs : ∀ a ∈ (parse_fact p).2, a.data ≠ [] := hp p (List.mem_cons_self _ _)
    have hprest : ∀ q ∈ rest, ∀ a ∈ (parse_fact q).2, a.data ≠ [] :=
      fun q hq => hp q (List.mem_cons_of_mem _ hq)
    suffices hscan : ∀ kb' : List String,
        (∀ f ∈ kb', f ∈ kb) →
        ∃ L, fsStep p sub (find_substitutions_for_premises rest kb) kb' = .ok L ∧
          (∀ s, s ∈ L ↔ ∃ f ∈ kb', ∃ s1, unify p f sub = .ok (some s1) ∧
            Chains rest kb s1 s) ∧
          (∀ s ∈ L, SubstWF s ∧ ConstPersist sub s) ∧
          ((kb.map parse_fact).Nodup → (kb'.map parse_fact).Nodup → L.Nodup) ∧
          L.length ≤ kb'.length * kb.length ^ rest.length by
      obtain ⟨L, hL, hiff, hcl, hnodup, hlen⟩ := hscan kb (fun f hf => hf)
      refine ⟨L, hL, ?_, hcl, fun hnd => hnodup hnd hnd, ?_⟩
      · intro s
        rw [hiff s]
        constructor
        · rintro ⟨f, hf, s1, hu, hch⟩
          exact Chains.cons hf hu hch
        · intro hch
          cases hch with
          | @cons _ _ _ f _ s1 _ hf hu hch2 => exact ⟨f, hf, s1, hu, hch2⟩
      · calc L.length ≤ kb.length * kb.length ^ rest.length := hlen
          _ = kb.length ^ (p :: rest).length := by rw [List.length_cons, pow_succ, mul_comm]
    intro kb'
    induction kb' with
    | nil =>
      intro _
      exact ⟨[], rfl, by simp, by simp, fun _ _ => List.nodup_nil, by simp⟩
    | cons f kb2 ihk =>
      intro hsub
      have hfk : f ∈ kb := hsub f (List.mem_cons_self _ _)
      have hfargs : ∀ a ∈ (parse_fact f).2, isConstName a = true := hk f hfk
      obtain ⟨L2, hL2, hiff2, hcl2, hnodup2, hlen2⟩ := ihk
        (fun g hg => hsub g (List.mem_cons_of_mem _ hg))
      obtain ⟨r, hr⟩ := unify_wf_total p f sub hpargs hfargs hs
      cases r with
      | none =>
        refine ⟨L2, ?_, ?_, hcl2, ?_, ?_⟩
        · simp only [fsStep, hr]
          exact hL2
        · intro s
          rw [hiff2 s]
          constructor
          · rintro ⟨g, hg, s1, hu, hch⟩
            exact ⟨g, List.mem_cons_of_mem _ hg, s1, hu, hch⟩
          · rintro ⟨g, hg, s1, hu, hch⟩
            rcases List.mem_cons.mp hg with rfl | hg2
            · rw [hr] at hu
              exact absurd (Except.ok.inj hu) (by simp)
            · exact ⟨g, hg2, s1, hu, hch⟩
        · intro hnd hnd'
          rw [List.map_cons] at hnd'
          exact hnodup2 hnd (List.nodup_cons.mp hnd').2
        · calc L2.length ≤ kb2.length * kb.length ^ rest.length := hlen2
            _ ≤ (f :: kb2).length * kb.length ^ rest.length := by
                apply Nat.mul_le_mul_right
                simp
      | some s1 =>
        obtain ⟨hpred1, hwf1, hcp1, hmap1⟩ :=
          unify_wf_some p f sub s1 hpargs hfargs hs hr
        obtain ⟨L1, hL1, hiff1, hcl1, hnodup1, hlen1⟩ := ih s1 hprest hk hwf1
        refine ⟨L1 ++ L2, ?_, ?_, ?_, ?_, ?_⟩
        · simp only [fsStep, hr, hL1, hL2]
        · intro s
          rw [List.mem_append, hiff1 s, hiff2 s]
          constructor
          · rintro (hch | ⟨g, hg, sg, hu, hch⟩)
            · exact ⟨f, List.mem_cons_self _ _, s1, hr, hch⟩
            · exact ⟨g, List.mem_cons_of_mem _ hg, sg, hu, hch⟩
          · rintro ⟨g, hg, sg, hu, hch⟩
            rcases List.mem_cons.mp hg with rfl | hg2
            · rw [hr] at hu
              have : s1 = sg := by
                have h1 := Except.ok.inj hu
                exact Option.some.inj h1
              subst this
              exact .inl hch
            · exact .inr ⟨g, hg2, sg, hu, hch⟩
        · intro s hmem
          rcases List.mem_append.mp hmem with h1 | h2
          · obtain ⟨hswx, hcpx⟩ := hcl1 s h1
            exact ⟨hswx, constPersist_trans hcp1 hcpx⟩
          · exact hcl2 s h2
        · intro hnd hnd'
          rw [List.map_cons] at hnd'
          rw [List.nodup_append]
          refine ⟨hnodup1 hnd, hnodup2 hnd (List.nodup_cons.mp hnd').2, ?_⟩
          intro s hs1 hs2
          have hchain1 : Chains rest kb s1 s := (hiff1 s).mp hs1
          obtain ⟨g, hg2, sg, hug, hchg⟩ := (hiff2 s).mp hs2
          have hgk : g ∈ kb := hsub g (List.mem_cons_of_mem _ hg2)
          have hgargs : ∀ a ∈ (parse_fact g).2, isConstName a = true := hk g hgk
          obtain ⟨hsws, hcp1s⟩ := chains_wf rest kb s1 s hchain1 hprest hk hwf1
          obtain ⟨hpredg, hwfg, hcpg, hmapg⟩ :=
            unify_wf_some p g sub sg hpargs hgargs hs hug
          obtain ⟨-, hcpgs⟩ := chains_wf rest kb sg s hchg hprest hk hwfg
          have hdf := chain_step_determines_fact_wf p f sub s1 s hpargs hfargs hs hr
            hcp1s hsws
          have hdg := chain_step_determines_fact_wf p g sub sg s hpargs hgargs hs hug
            hcpgs hsws
          have hfg : parse_fact f = parse_fact g := by rw [hdf, hdg]
          have hginmap : parse_fact g ∈ kb2.map parse_fact :=
            List.mem_map_of_mem parse_fact hg2
          rw [← hfg] at hginmap
          exact (List.nodup_cons.mp hnd').1 hginmap
        · rw [List.length_append, List.length_cons]
          calc L1.length + L2.length
              ≤ kb.length ^ rest.length + kb2.length * kb.length ^ rest.length :=
                Nat.add_le_add hlen1 hlen2
            _ = (kb2.length + 1) * kb.length ^ rest.length := by ring

/-- Claim C3. For every ordered list of premise templates (nonempty parsed
arguments), every finite set of ground facts (pairwise-distinct parsed
facts with constant-name arguments) and every initial substitution of the
data model of spec section 3 — variable-name keys mapped to terms, where a
term is a variable name or a constant name, so variable-valued bindings
are included — the premise solver yields exactly the set of substitutions
obtainable by unifying each premise in order with some fact of the set
while threading bindings from earlier premises into later ones (`Chains`),
with no duplicate substitution yielded; for the empty premise list it
yields exactly `sub0`; and the number of yielded substitutions is at most
`|facts| ^ |premises|`. -/
theorem find_substitutions_spec (premises kb : List String) (sub0 : Subst)
    (hp : ∀ p ∈ premises, ∀ a ∈ (parse_fact p).2, a.data ≠ [])
    (hk : ∀ f ∈ kb, ∀ a ∈ (parse_fact f).2, isConstName a = true)
    (hnd : (kb.map parse_fact).Nodup)
    (hs : SubstWF sub0) :
    ∃ L, find_substitutions_for_premises premises kb sub0 = .ok L ∧
      (∀ s, s ∈ L ↔ Chains premises kb sub0 s) ∧
      L.Nodup ∧ (premises = [] → L = [sub0]) ∧
      L.length ≤ kb.length ^ premises.length := by
  obtain ⟨L, hL, hiff, _, hnodup, hlen⟩ := find_subs_full_wf premises kb sub0 hp hk hs
  refine ⟨L, hL, hiff, hnodup hnd, ?_, hlen⟩
  rintro rfl
  have h0 : find_substitutions_for_premises [] kb sub0 = .ok [sub0] := rfl
  rw [h0] at hL
  exact (Except.ok.inj hL).symm

/-- Witness for `find_substitutions_spec`: the `Sells` rule body from the
crime scenario against the initial knowledge base, starting from the
variable-valued substitution that maps the variable `x` to the variable
`y` — a substitution `CleanSub` would exclude. -/
theorem find_substitutions_spec_witness :
    ∃ L, find_substitutions_for_premises ["Missile(x)", "Owns(A, x)"] crimeKB
        [("x", "y")] = .ok L ∧
      (∀ s, s ∈ L ↔ Chains ["Missile(x)", "Owns(A, x)"] crimeKB [("x", "y")] s) ∧
      L.Nodup ∧ ((["Missile(x)", "Owns(A, x)"] : List String) = [] → L = [[("x", "y")]]) ∧
      L.length ≤ crimeKB.length ^ (["Missile(x)", "Owns(A, x)"] : List String).length :=
  find_substitutions_spec ["Missile(x)", "Owns(A, x)"] crimeKB [("x", "y")] (by decide)
    (by decide) (by decide) (by decide)

/-! ## C4: semi-naive staging — rounds read a snapshot -/

theorem addIfNew_fold_mem (kb : List String) (concl : String) (subs : List Subst) :
    ∀ acc f, f ∈ subs.foldl (fun a s => addIfNew kb a (apply_substitution concl s)) acc →
      f ∈ acc ∨ (f ∉ kb ∧ ∃ s ∈ subs, f = apply_substitution concl s) := by
  induction subs with
  | nil => exact fun acc f h => .inl h
  | cons s0 rest ihs =>
    intro acc f h
    rw [List.foldl_cons] at h
    rcases ihs _ f h with hacc | ⟨hnk, s, hsm, rfl⟩
    · unfold addIfNew at hacc
      by_cases hcond : apply_substitution concl s0 ∈ kb ∨ apply_substitution concl s0 ∈ acc
      · rw [if_pos hcond] at hacc
        exact .inl hacc
      · rw [if_neg hcond] at hacc
        rcases List.mem_append.mp hacc with h1 | h2
        · exact .inl h1
        · rw [List.mem_singleton] at h2
          subst h2
          push_neg at hcond
          exact .inr ⟨hcond.1, s0, List.mem_cons_self _ _, rfl⟩
    · exact .inr ⟨hnk, s, List.mem_cons_of_mem _ hsm, rfl⟩

theorem roundRules_mem (kb : List String) :
    ∀ (rulesLeft : List Rule) (acc out : List String),
      roundRules kb rulesLeft acc = .ok out →
      ∀ f ∈ out, f ∈ acc ∨ (f ∉ kb ∧ ∃ pr ∈ rulesLeft, ∃ subs,
        find_substitutions_for_premises pr.1 kb [] = .ok subs ∧
        ∃ s ∈ subs, f = apply_substitution pr.2 s) := by
  intro rulesLeft
  induction rulesLeft with
  | nil =>
    intro acc out h f hf
    exact .inl (by rw [← Except.ok.inj h] at hf; exact hf)
  | cons pr rest ihr =>
    intro acc out h f hf
    obtain ⟨premises, conclusion⟩ := pr
    unfold roundRules at h
    cases hfs : find_substitutions_for_premises premises kb [] with
    | error e => rw [hfs] at h; cases h
    | ok subs =>
      rw [hfs] at h
      rcases ihr _ out h f hf with hacc | ⟨hnk, pr2, hpr2, subs2, hfs2, s2, hs2, rfl⟩
      · rcases addIfNew_fold_mem kb conclusion subs acc f hacc with h1 | ⟨hnk, s, hsm, rfl⟩
        · exact .inl h1
        · exact .inr ⟨hnk, (premises, conclusion), List.mem_cons_self _ _, subs, hfs,
            s, hsm, rfl⟩
      · exact .inr ⟨hnk, pr2, List.mem_cons_of_mem _ hpr2, subs2, hfs2, s2, hs2, rfl⟩

/-- Claim C4. One forward-chaining round reads exactly the fact base as it
stood at the round's start: every fact in the round's batch is absent
from that snapshot and is derived by a premise-solver call against the
snapshot alone (all solver calls receive `kb` itself), and the batch only
becomes part of the fact base passed to the next round's solver calls —
the loop continues on `kb ++ batch`. -/
theorem round_snapshot (rules : List Rule) (kb batch : List String)
    (h : roundNewFacts rules kb = .ok batch) :
    (∀ f ∈ batch, f ∉ kb ∧ ∃ pr ∈ rules, ∃ subs,
        find_substitutions_for_premises pr.1 kb [] = .ok subs ∧
        ∃ s ∈ subs, f = apply_substitution pr.2 s) ∧
    (∀ (query : String) (fuel iter : Nat) (batches : List (List String)),
        batch.isEmpty = false → query ∉ kb ++ batch →
        fcLoop rules query (fuel + 1) kb batches iter =
          fcLoop rules query fuel (kb ++ batch) (batches ++ [batch]) (iter + 1)) := by
  constructor
  · intro f hf
    rcases roundRules_mem kb rules [] batch h f hf with h1 | ⟨hnk, pr, hpr, subs, hfs, hs⟩
    · cases h1
    · exact ⟨hnk, pr, hpr, subs, hfs, hs⟩
  · intro query fuel iter batches hbe hq
    simp only [fcLoop, h]
    rw [if_neg (by simp [hbe]), if_neg hq]

/-- Witness for `round_snapshot`: round 1 of the crime scenario. -/
theorem round_snapshot_witness :
    (∀ f ∈ ["Weapon(T1)", "Hostile(A)", "Sells(Robert,T1,A)"], f ∉ crimeKB ∧
        ∃ pr ∈ crimeRules, ∃ subs,
        find_substitutions_for_premises pr.1 crimeKB [] = .ok subs ∧
        ∃ s ∈ subs, f = apply_substitution pr.2 s) ∧
    (∀ (query : String) (fuel iter : Nat) (batches : List (List String)),
        (["Weapon(T1)", "Hostile(A)", "Sells(Robert,T1,A)"] : List String).isEmpty = false →
        query ∉ crimeKB ++ ["Weapon(T1)", "Hostile(A)", "Sells(Robert,T1,A)"] →
        fcLoop crimeRules query (fuel + 1) crimeKB batches iter =
          fcLoop crimeRules query fuel
            (crimeKB ++ ["Weapon(T1)", "Hostile(A)", "Sells(Robert,T1,A)"])
            (batches ++ [["Weapon(T1)", "Hostile(A)", "Sells(Robert,T1,A)"]]) (iter + 1)) :=
  round_snapshot crimeRules crimeKB ["Weapon(T1)", "Hostile(A)", "Sells(Robert,T1,A)"]
    (by decide)

/-! ## C6: there is no rule-safety check -/

set_option maxRecDepth 4000 in
/-- Claim C6, counterexample: the unsafe rule `Missile(x) ⇒ Bar(y)` (whose
conclusion variable `y` occurs in no premise) is not rejected — no
`UnsafeRuleError` exists anywhere in the code and there is no
rule-construction stage: the rule is evaluated like any other and the
round derives the non-ground pseudo-fact `"Bar(y)"` containing the
variable `y` verbatim. -/
theorem unsafe_rule_silently_accepted :
    roundNewFacts [(["Missile(x)"], "Bar(y)")] ["Missile(T1)"] = .ok ["Bar(y)"] ∧
      isVarName "y" = true ∧ "y" ∈ (parse_fact "Bar(y)").2 ∧
      "y" ∉ (parse_fact "Missile(x)").2 := by
  decide

theorem chains_keys (premises kb : List String) (s0 s : Subst)
    (hch : Chains premises kb s0 s)
    (hp : ∀ p ∈ premises, ∀ a ∈ (parse_fact p).2, a.data ≠ [])
    (hk : ∀ f ∈ kb, ∀ a ∈ (parse_fact f).2, isConstName a = true)
    (hc0 : CleanSub s0) :
    ∀ k v, dictGet s k = some v →
      dictGet s0 k = some v ∨ ∃ p ∈ premises, k ∈ (parse_fact p).2 := by
  induction premises generalizing s0 with
  | nil =>
    cases hch
    exact fun k v h => .inl h
  | cons p rest ih =>
    cases hch with
    | @cons _ _ _ f _ smid _ hf hu hch2 =>
      intro k v h
      obtain ⟨_, hext1, hclean1, _, hnew⟩ := unify_some_struct p f s0 smid
        (hp p (List.mem_cons_self _ _)) (hk f hf) hc0 hu
      rcases ih smid hch2 (fun q hq => hp q (List.mem_cons_of_mem _ hq)) hclean1 k v h with
        hmid | ⟨q, hq, hkq⟩
      · cases hg0 : dictGet s0 k with
        | some w =>
          have := hext1 k w hg0
          rw [hmid] at this
          cases this
          exact .inl rfl
        | none =>
          obtain ⟨_, hkp, _⟩ := hnew k hg0 v hmid
          exact .inr ⟨p, List.mem_cons_self _ _, hkp⟩
      · exact .inr ⟨q, List.mem_cons_of_mem _ hq, hkq⟩

/-- Claim C6, amended. No safety rejection exists.  A rule whose conclusion
contains a variable `v` occurring in no premise is evaluated anyway, and
every substitution the premise solver yields for its premises leaves `v`
unbound, so `apply_substitution` emits the conclusion with `v`
unsubstituted: `v` itself appears in the emitted fact's argument list. -/
theorem unsafe_rule_variable_unbound (premises kb : List String) (concl : String)
    (subs : List Subst) (s : Subst) (v : String)
    (hp : ∀ p ∈ premises, ∀ a ∈ (parse_fact p).2, a.data ≠ [])
    (hk : ∀ f ∈ kb, ∀ a ∈ (parse_fact f).2, isConstName a = true)
    (hfs : find_substitutions_for_premises premises kb [] = .ok subs)
    (hmem : s ∈ subs)
    (hv : v ∈ (parse_fact concl).2)
    (hunb : ∀ p ∈ premises, v ∉ (parse_fact p).2) :
    dictGet s v = none ∧ resolve s v = v ∧
      v ∈ (parse_fact concl).2.map (resolve s) := by
  have hclean0 : CleanSub ([] : Subst) := by intro kv hkv; cases hkv
  obtain ⟨L, hL, hiff, _, _, _⟩ := find_subs_full premises kb ([] : Subst) hp hk hclean0
  rw [hfs] at hL
  have hsubs : subs = L := Except.ok.inj hL
  subst hsubs
  have hch : Chains premises kb [] s := (hiff s).mp hmem
  have hget : dictGet s v = none := by
    cases hg : dictGet s v with
    | none => rfl
    | some w =>
      rcases chains_keys premises kb [] s hch hp hk hclean0 v w hg with h0 | ⟨q, hq, hvq⟩
      · cases h0
      · exact absurd hvq (hunb q hq)
  have hres : resolve s v = v := by
    unfold resolve
    rw [hget]
    rfl
  exact ⟨hget, hres, by rw [← hres]; exact List.mem_map_of_mem _ hv⟩

/-- Witness for `unsafe_rule_variable_unbound` at the unsafe rule
`Missile(x) ⇒ Bar(y)` over the base `{Missile(T1)}`. -/
theorem unsafe_rule_variable_unbound_witness :
    dictGet [("x", "T1")] "y" = none ∧ resolve [("x", "T1")] "y" = "y" ∧
      "y" ∈ (parse_fact "Bar(y)").2.map (resolve [("x", "T1")]) :=
  unsafe_rule_variable_unbound ["Missile(x)"] ["Missile(T1)"] "Bar(y)"
    [[("x", "T1")]] [("x", "T1")] "y"
    (by decide) (by decide) (by decide) (by decide) (by decide) (by decide)

/-! ## C7: termination of the forward-chaining loop -/

/-- Like `chains_keys`, but for values: every binding value in a chained
substitution comes from the initial substitution or from some knowledge
base fact's arguments. -/
theorem chains_values (premises kb : List String) (s0 s : Subst)
    (hch : Chains premises kb s0 s)
    (hp : ∀ p ∈ premises, ∀ a ∈ (parse_fact p).2, a.data ≠ [])
    (hk : ∀ f ∈ kb, ∀ a ∈ (parse_fact f).2, isConstName a = true)
    (hc0 : CleanSub s0) :
    ∀ k v, dictGet s k = some v →
      dictGet s0 k = some v ∨ ∃ f ∈ kb, v ∈ (parse_fact f).2 := by
  induction premises generalizing s0 with
  | nil =>
    cases hch
    exact fun k v h => .inl h
  | cons p rest ih =>
    cases hch with
    | @cons _ _ _ f _ smid _ hf hu hch2 =>
      intro k v h
      obtain ⟨_, hext1, hclean1, _, hnew⟩ := unify_some_struct p f s0 smid
        (hp p (List.mem_cons_self _ _)) (hk f hf) hc0 hu
      rcases ih smid hch2 (fun q hq => hp q (List.mem_cons_of_mem _ hq)) hclean1 k v h with
        hmid | hval
      · cases hg0 : dictGet s0 k with
        | some w =>
          have hw := hext1 k w hg0
          rw [hmid] at hw
          cases hw
          exact .inl rfl
        | none =>
          obtain ⟨_, _, hvf⟩ := hnew k hg0 v hmid
          exact .inr ⟨f, hf, hvf⟩
      · exact .inr hval

theorem not_varName_and_constName (a : String) (h1 : isVarName a = true)
    (h2 : isConstName a = true) : False := by
  unfold isVarName at h1
  unfold isConstName at h2
  cases ht : a.data with
  | nil => rw [ht] at h1; simp at h1
  | cons c u =>
    rw [ht] at h1 h2
    simp at h1 h2
    rw [h1] at h2
    cases h2

/-- In a chained substitution every variable occurring in some premise's
arguments is bound. -/
theorem chains_binds_vars (premises kb : List String) (s0 s : Subst)
    (hch : Chains premises kb s0 s)
    (hp : ∀ p ∈ premises, ∀ a ∈ (parse_fact p).2, a.data ≠ [])
    (hk : ∀ f ∈ kb, ∀ a ∈ (parse_fact f).2, isConstName a = true)
    (hc0 : CleanSub s0) :
    ∀ q ∈ premises, ∀ a ∈ (parse_fact q).2, isVarName a = true →
      dictGet s a ≠ none := by
  induction premises generalizing s0 with
  | nil => intro q hq; cases hq
  | cons p rest ih =>
    cases hch with
    | @cons _ _ _ f _ smid _ hf hu hch2 =>
      intro q hq a ha hvar
      obtain ⟨_, hext1, hclean1, hmap, _⟩ := unify_some_struct p f s0 smid
        (hp p (List.mem_cons_self _ _)) (hk f hf) hc0 hu
      have hprest : ∀ r ∈ rest, ∀ b ∈ (parse_fact r).2, b.data ≠ [] :=
        fun r hr => hp r (List.mem_cons_of_mem _ hr)
      rcases List.mem_cons.mp hq with rfl | hqrest
      · have hres : resolve smid a ∈ (parse_fact f).2 := by
          rw [← hmap]
          exact List.mem_map_of_mem _ ha
        have hconst : isConstName (resolve smid a) = true := hk f hf _ hres
        cases hg : dictGet smid a with
        | none =>
          exfalso
          have : resolve smid a = a := by unfold resolve; rw [hg]; rfl
          rw [this] at hconst
          exact not_varName_and_constName a hvar hconst
        | some v =>
          obtain ⟨hext2, _⟩ := chains_extends rest kb smid s hch2 hprest hk hclean1
          rw [hext2 a v hg]
          simp
      · exact ih smid hch2 hprest hclean1 q hqrest a ha hvar

/-- All argument strings appearing anywhere in the initial facts or in
the rule templates: the constant pool of the run. -/
def pool (rules : List Rule) (kb : List String) : List String :=
  kb.flatMap (fun f => (parse_fact f).2) ++
    rules.flatMap (fun r => r.1.flatMap (fun p => (parse_fact p).2) ++ (parse_fact r.2).2)

/-- All argument lists of a given length over a pool. -/
def tuples : Nat → List String → List (List String)
  | 0, _ => [[]]
  | n + 1, P => P.flatMap (fun a => (tuples n P).map (a :: ·))

theorem mem_tuples (n : Nat) (P : List String) (l : List String) :
    l ∈ tuples n P ↔ l.length = n ∧ ∀ a ∈ l, a ∈ P := by
  induction n generalizing l with
  | zero =>
    simp only [tuples, List.mem_singleton]
    constructor
    · rintro rfl; simp
    · rintro ⟨hl, _⟩
      exact List.length_eq_zero.mp hl
  | succ m ihn =>
    simp only [tuples]
    rw [List.mem_flatMap]
    constructor
    · rintro ⟨a, ha, hl⟩
      obtain ⟨t, ht, rfl⟩ := List.mem_map.mp hl
      obtain ⟨hlen, hmem⟩ := (ihn t).mp ht
      refine ⟨by simp [hlen], ?_⟩
      intro b hb
      rcases List.mem_cons.mp hb with rfl | hbt
      · exact ha
      · exact hmem b hbt
    · rintro ⟨hlen, hmem⟩
      cases l with
      | nil => simp at hlen
      | cons a t =>
        refine ⟨a, hmem a (List.mem_cons_self _ _), ?_⟩
        apply List.mem_map_of_mem
        exact (ihn t).mpr ⟨by simpa using hlen, fun b hb => hmem b (List.mem_cons_of_mem _ hb)⟩

/-- Every pool element is a parsed argument of some initial fact, premise
or conclusion, hence free of commas, close parentheses and newlines, and
stripped of surrounding whitespace. -/
theorem pool_clean (rules : List Rule) (kb : List String) :
    ∀ a ∈ pool rules kb,
      (∀ c ∈ a.data, c ≠ ',' ∧ c ≠ ')' ∧ c ≠ '\n') ∧ stripChars a.data = a.data := by
  intro a ha
  unfold pool at ha
  rcases List.mem_append.mp ha with h1 | h2
  · obtain ⟨f, hf, haf⟩ := List.mem_flatMap.mp h1
    exact parse_args_clean f (parse_fact f).1 (parse_fact f).2 rfl a haf
  · obtain ⟨r, hr2, hmem⟩ := List.mem_flatMap.mp h2
    rcases List.mem_append.mp hmem with h3 | h4
    · obtain ⟨p, hp2, hap⟩ := List.mem_flatMap.mp h3
      exact parse_args_clean p (parse_fact p).1 (parse_fact p).2 rfl a hap
    · exact parse_args_clean r.2 (parse_fact r.2).1 (parse_fact r.2).2 rfl a h4

/-- The distinct constant names appearing as parsed arguments anywhere in
the initial facts and rules: the pool restricted to constants, with
duplicates removed. -/
def constantsOf (rules : List Rule) (kb : List String) : List String :=
  ((pool rules kb).filter (fun a => isConstName a)).dedup

/-- The distinct predicate-and-arity signatures appearing in the initial
facts and rules (initial facts, premises and conclusions alike). -/
def signaturesOf (rules : List Rule) (kb : List String) : List (String × Nat) :=
  ((kb.map parse_fact ++
      rules.flatMap (fun r => r.1.map parse_fact ++ [parse_fact r.2])).map
    (fun pa => (pa.1, pa.2.length))).dedup

/-- The ground fact universe of a run: every distinct ground fact
expressible by rendering a program predicate signature over argument
tuples of the constants appearing in the initial facts and rules. -/
def herbrandBase (rules : List Rule) (kb : List String) : List String :=
  ((signaturesOf rules kb).flatMap
    (fun sig => (tuples sig.2 (constantsOf rules kb)).map (renderFact sig.1))).dedup

/-- The ground fact universe is duplicate-free, so its length is the
number of distinct expressible ground facts. -/
theorem herbrandBase_nodup (rules : List Rule) (kb : List String) :
    (herbrandBase rules kb).Nodup := List.nodup_dedup _

/-- Membership in the ground fact universe: renders of a program
signature over tuples of program constants, and nothing else. -/
theorem mem_herbrandBase (rules : List Rule) (kb : List String) (f : String) :
    f ∈ herbrandBase rules kb ↔ ∃ sig ∈ signaturesOf rules kb,
      ∃ rs, rs.length = sig.2 ∧ (∀ a ∈ rs, a ∈ constantsOf rules kb) ∧
        f = renderFact sig.1 rs := by
  unfold herbrandBase
  rw [List.mem_dedup, List.mem_flatMap]
  constructor
  · rintro ⟨sig, hsig, hmem⟩
    obtain ⟨rs, hrs, rfl⟩ := List.mem_map.mp hmem
    obtain ⟨hlen, hall⟩ := (mem_tuples _ _ _).mp hrs
    exact ⟨sig, hsig, rs, hlen, hall, rfl⟩
  · rintro ⟨sig, hsig, rs, hlen, hall, rfl⟩
    exact ⟨sig, hsig, List.mem_map_of_mem _ ((mem_tuples _ _ _).mpr ⟨hlen, hall⟩)⟩

/-- Every member of the ground fact universe is ground: each of its
parsed arguments is one of the program constants. -/
theorem herbrandBase_ground (rules : List Rule) (kb : List String) (f : String)
    (hf : f ∈ herbrandBase rules kb) :
    ∀ a ∈ (parse_fact f).2, a ∈ constantsOf rules kb ∧ isConstName a = true := by
  obtain ⟨sig, hsig, rs, hlen, hall, rfl⟩ := (mem_herbrandBase rules kb f).mp hf
  obtain ⟨sp, sn⟩ := sig
  unfold signaturesOf at hsig
  rw [List.mem_dedup] at hsig
  obtain ⟨pa, hpa, hsigeq⟩ := List.mem_map.mp hsig
  obtain ⟨pa1, pa2⟩ := pa
  simp only [Prod.mk.injEq] at hsigeq
  obtain ⟨hsp, hsn⟩ := hsigeq
  subst hsp
  subst hsn
  have hpt : ∃ t : String, parse_fact t = (pa1, pa2) := by
    rcases List.mem_append.mp hpa with h1 | h2
    · obtain ⟨t, _, ht⟩ := List.mem_map.mp h1
      exact ⟨t, ht⟩
    · obtain ⟨r, _, hmem⟩ := List.mem_flatMap.mp h2
      rcases List.mem_append.mp hmem with h3 | h4
      · obtain ⟨t, _, ht⟩ := List.mem_map.mp h3
        exact ⟨t, ht⟩
      · rw [List.mem_singleton] at h4
        exact ⟨r.2, h4.symm⟩
  obtain ⟨t, hpt⟩ := hpt
  have hallc : ∀ a ∈ rs, a ∈ pool rules kb ∧ isConstName a = true := by
    intro a ha
    have hm := hall a ha
    unfold constantsOf at hm
    rw [List.mem_dedup, List.mem_filter] at hm
    exact ⟨hm.1, hm.2⟩
  cases rs with
  | nil =>
    have hpa2 : pa2 = [] := by
      have h0 : pa2.length = 0 := by simpa using hlen.symm
      exact List.length_eq_zero.mp h0
    subst hpa2
    have hself : parse_fact pa1 = (pa1, []) := parse_pred_self t pa1 hpt
    have hrend : renderFact pa1 [] = pa1 := by
      unfold renderFact
      simp
    intro a ha
    rw [hrend, hself] at ha
    cases ha
  | cons b u =>
    have hpane : pa2 ≠ [] := by
      intro h0
      rw [h0] at hlen
      simp at hlen
    have hpred := parse_pred_word t pa1 pa2 hpt hpane
    have hargsc : ∀ a ∈ b :: u, a.data ≠ [] ∧
        (∀ c ∈ a.data, c ≠ ',' ∧ c ≠ ')' ∧ c ≠ '\n') ∧ stripChars a.data = a.data := by
      intro a ha
      obtain ⟨hapool, hac⟩ := hallc a ha
      obtain ⟨hcl, hst⟩ := pool_clean rules kb a hapool
      exact ⟨constName_data_ne_nil a hac, hcl, hst⟩
    have hparse := parse_renderFact pa1 (b :: u) (by simp) hpred hargsc
    intro a ha
    rw [hparse] at ha
    exact ⟨hall a ha, (hallc a ha).2⟩

/-- Knowledge-base invariant: every parsed argument of every fact is a
constant name drawn from the pool. -/
def KBInv (P : List String) (kb : List String) : Prop :=
  ∀ f ∈ kb, ∀ a ∈ (parse_fact f).2, a ∈ P ∧ isConstName a = true

/-- A well-formed safe rule: premise arguments nonempty, conclusion
arguments variables or constants, and every conclusion variable occurs in
some premise (rule safety). -/
def RuleWF (r : Rule) : Prop :=
  (∀ p ∈ r.1, ∀ a ∈ (parse_fact p).2, a.data ≠ []) ∧
    (∀ a ∈ (parse_fact r.2).2, isVarName a = true ∨ isConstName a = true) ∧
    (∀ a ∈ (parse_fact r.2).2, isVarName a = true → ∃ p ∈ r.1, a ∈ (parse_fact p).2)

instance (r : Rule) : Decidable (RuleWF r) := by
  unfold RuleWF
  infer_instance

theorem cleanSub_nil : CleanSub ([] : Subst) := by
  intro kv hkv
  cases hkv

/-- Arguments of a fact derived by a safe rule: each conclusion argument
resolves to a constant name from the pool. -/
theorem derived_args (premises kb : List String) (concl : String) (s : Subst)
    (P : List String)
    (hch : Chains premises kb [] s)
    (hp : ∀ p ∈ premises, ∀ a ∈ (parse_fact p).2, a.data ≠ [])
    (hk : ∀ f ∈ kb, ∀ a ∈ (parse_fact f).2, isConstName a = true)
    (hkp : ∀ f ∈ kb, ∀ a ∈ (parse_fact f).2, a ∈ P)
    (hcwf : ∀ a ∈ (parse_fact concl).2, isVarName a = true ∨ isConstName a = true)
    (hsafe : ∀ a ∈ (parse_fact concl).2, isVarName a = true → ∃ p ∈ premises, a ∈ (parse_fact p).2)
    (hcp : ∀ a ∈ (parse_fact concl).2, a ∈ P) :
    ∀ a ∈ (parse_fact concl).2, resolve s a ∈ P ∧ isConstName (resolve s a) = true := by
  intro a ha
  obtain ⟨_, hcleans⟩ := chains_extends premises kb [] s hch hp hk cleanSub_nil
  rcases hcwf a ha with hvar | hconst
  · obtain ⟨q, hq, haq⟩ := hsafe a ha hvar
    have hbound := chains_binds_vars premises kb [] s hch hp hk cleanSub_nil q hq a haq hvar
    cases hg : dictGet s a with
    | none => exact absurd hg hbound
    | some v =>
      have hres : resolve s a = v := by unfold resolve; rw [hg]; rfl
      rcases chains_values premises kb [] s hch hp hk cleanSub_nil a v hg with h0 | ⟨f, hf, hvf⟩
      · cases h0
      · rw [hres]
        exact ⟨hkp f hf v hvf, hk f hf v hvf⟩
  · have hg : dictGet s a = none :=
      cleanSub_get_none s hcleans a (constName_not_varName a hconst)
    have hres : resolve s a = a := by unfold resolve; rw [hg]; rfl
    rw [hres]
    exact ⟨hcp a ha, hconst⟩

/-- Parsing a fact rendered from a word predicate and pool-shaped
constant arguments recovers exactly those arguments. -/
theorem parse_render_pool (concl : String) (rs : List String) (P : List String)
    (hPclean : ∀ a ∈ P, (∀ c ∈ a.data, c ≠ ',' ∧ c ≠ ')' ∧ c ≠ '\n') ∧
      stripChars a.data = a.data)
    (hrs : ∀ a ∈ rs, a ∈ P ∧ isConstName a = true)
    (hlen : rs.length = (parse_fact concl).2.length) :
    (rs = [] ∧ (parse_fact (renderFact (parse_fact concl).1 rs)).2 = []) ∨
      parse_fact (renderFact (parse_fact concl).1 rs) = ((parse_fact concl).1, rs) := by
  cases hrsc : rs with
  | nil =>
    refine .inl ⟨rfl, ?_⟩
    have hcnil : (parse_fact concl).2 = [] := by
      rw [hrsc] at hlen
      exact (List.length_eq_zero.mp hlen.symm)
    have hself := parse_pred_self concl (parse_fact concl).1 (by rw [← hcnil])
    have hrend : renderFact (parse_fact concl).1 [] = (parse_fact concl).1 := by
      unfold renderFact
      simp
    rw [hrend, hself]
  | cons b u =>
    refine .inr ?_
    rw [← hrsc]
    have hcne : (parse_fact concl).2 ≠ [] := by
      intro hnil
      rw [hnil, hrsc] at hlen
      simp at hlen
    have hword := parse_pred_word concl (parse_fact concl).1 (parse_fact concl).2 rfl hcne
    apply parse_renderFact (parse_fact concl).1 rs (by rw [hrsc]; simp) hword
    intro a ha
    obtain ⟨haP, haC⟩ := hrs a ha
    exact ⟨constName_data_ne_nil a haC, (hPclean a haP).1, (hPclean a haP).2⟩

set_option maxHeartbeats 1000000 in
/-- One round under the invariant: no exception, every batch fact is new
and is the render of some rule conclusion over constant arguments drawn
from the pool, and the invariant is preserved. -/
theorem round_ok (rules : List Rule) (P kb : List String)
    (hrwf : ∀ r ∈ rules, RuleWF r)
    (hrp : ∀ r ∈ rules, ∀ a ∈ (parse_fact r.2).2, a ∈ P)
    (hPclean : ∀ a ∈ P, (∀ c ∈ a.data, c ≠ ',' ∧ c ≠ ')' ∧ c ≠ '\n') ∧
      stripChars a.data = a.data)
    (hinv : KBInv P kb) :
    ∃ batch, roundNewFacts rules kb = .ok batch ∧
      (∀ f ∈ batch, f ∉ kb ∧ ∃ r ∈ rules, ∃ rs,
        rs.length = (parse_fact r.2).2.length ∧
        (∀ a ∈ rs, a ∈ P ∧ isConstName a = true) ∧
        f = renderFact (parse_fact r.2).1 rs) ∧
      KBInv P (kb ++ batch) := by
  have hk : ∀ f ∈ kb, ∀ a ∈ (parse_fact f).2, isConstName a = true :=
    fun f hf a ha => (hinv f hf a ha).2
  have hkp : ∀ f ∈ kb, ∀ a ∈ (parse_fact f).2, a ∈ P :=
    fun f hf a ha => (hinv f hf a ha).1
  have htotal : ∀ rulesLeft : List Rule, (∀ r ∈ rulesLeft, r ∈ rules) →
      ∀ acc, ∃ out, roundRules kb rulesLeft acc = .ok out := by
    intro rulesLeft
    induction rulesLeft with
    | nil => exact fun _ acc => ⟨acc, rfl⟩
    | cons r rest ihr =>
      intro hsub acc
      obtain ⟨prems, concl⟩ := r
      obtain ⟨L, hL, _, _, _, _⟩ := find_subs_full prems kb []
        ((hrwf _ (hsub _ (List.mem_cons_self _ _))).1) hk cleanSub_nil
      obtain ⟨out, hout⟩ := ihr (fun q hq => hsub q (List.mem_cons_of_mem _ hq))
        (L.foldl (fun a s => addIfNew kb a (apply_substitution concl s)) acc)
      refine ⟨out, ?_⟩
      unfold roundRules
      rw [hL]
      exact hout
  obtain ⟨batch, hbatch⟩ := htotal rules (fun r hr => hr) []
  have hprops : ∀ f ∈ batch, f ∉ kb ∧ (∃ r ∈ rules, ∃ rs,
      rs.length = (parse_fact r.2).2.length ∧
      (∀ a ∈ rs, a ∈ P ∧ isConstName a = true) ∧
      f = renderFact (parse_fact r.2).1 rs) ∧
      ∀ a ∈ (parse_fact f).2, a ∈ P ∧ isConstName a = true := by
    intro f hf
    rcases roundRules_mem kb rules [] batch hbatch f hf with h0 | ⟨hnk, pr, hpr, subs, hfs, s, hsm, rfl⟩
    · cases h0
    · obtain ⟨hprems, hcwf, hsafe⟩ := hrwf pr hpr
      obtain ⟨L, hL, hiff, _, _, _⟩ := find_subs_full pr.1 kb [] hprems hk cleanSub_nil
      rw [hfs] at hL
      have hsL : subs = L := Except.ok.inj hL
      subst hsL
      have hch : Chains pr.1 kb [] s := (hiff s).mp hsm
      have hda := derived_args pr.1 kb pr.2 s P hch hprems hk hkp hcwf hsafe (hrp pr hpr)
      have happ : apply_substitution pr.2 s =
          renderFact (parse_fact pr.2).1 ((parse_fact pr.2).2.map (resolve s)) := rfl
      have hrsP : ∀ a ∈ (parse_fact pr.2).2.map (resolve s),
          a ∈ P ∧ isConstName a = true := by
        intro a ha
        obtain ⟨b, hb, rfl⟩ := List.mem_map.mp ha
        exact hda b hb
      have hU : ∃ r ∈ rules, ∃ rs, rs.length = (parse_fact r.2).2.length ∧
          (∀ a ∈ rs, a ∈ P ∧ isConstName a = true) ∧
          apply_substitution pr.2 s = renderFact (parse_fact r.2).1 rs :=
        ⟨pr, hpr, (parse_fact pr.2).2.map (resolve s), by simp, hrsP, happ⟩
      refine ⟨hnk, hU, ?_⟩
      intro a ha
      rcases parse_render_pool pr.2 ((parse_fact pr.2).2.map (resolve s)) P hPclean hrsP
          (by simp) with ⟨hnil, hargs⟩ | heq
      · rw [happ, hargs] at ha
        cases ha
      · rw [happ, heq] at ha
        exact hrsP a ha
  refine ⟨batch, hbatch, fun f hf => ⟨(hprops f hf).1, (hprops f hf).2.1⟩, ?_⟩
  intro f hf
  rcases List.mem_append.mp hf with h1 | h2
  · exact hinv f h1
  · exact (hprops f h2).2.2

set_option maxHeartbeats 1000000 in
/-- Fuel induction: from any knowledge base satisfying the invariant, the
loop halts normally once the fuel exceeds the number of facts of a
derivation-closed universe `U` still underivable — each continuing round
adds at least one new fact of `U`. -/
theorem fcLoop_terminates (rules : List Rule) (P U : List String) (query : String)
    (hrwf : ∀ r ∈ rules, RuleWF r)
    (hrp : ∀ r ∈ rules, ∀ a ∈ (parse_fact r.2).2, a ∈ P)
    (hPclean : ∀ a ∈ P, (∀ c ∈ a.data, c ≠ ',' ∧ c ≠ ')' ∧ c ≠ '\n') ∧
      stripChars a.data = a.data)
    (hUcl : ∀ r ∈ rules, ∀ rs, rs.length = (parse_fact r.2).2.length →
      (∀ a ∈ rs, a ∈ P ∧ isConstName a = true) →
      renderFact (parse_fact r.2).1 rs ∈ U) :
    ∀ n kb batches iter, KBInv P kb →
      (U.toFinset \ kb.toFinset).card < n →
      ∃ res, fcLoop rules query n kb batches iter = .ok (some res) := by
  intro n
  induction n with
  | zero =>
    intro kb batches iter _ hcard
    exact absurd hcard (Nat.not_lt_zero _)
  | succ m ihn =>
    intro kb batches iter hinv hcard
    obtain ⟨batch, hbatch, hnew, hinv2⟩ := round_ok rules P kb hrwf hrp hPclean hinv
    by_cases hbe : batch = []
    · refine ⟨⟨decide (query ∈ kb), iter, batches, kb⟩, ?_⟩
      simp only [fcLoop, hbatch]
      rw [if_pos (by simp [hbe])]
    · have hbe' : batch.isEmpty = false := by
        cases batch with
        | nil => exact absurd rfl hbe
        | cons b t => rfl
      by_cases hq : query ∈ kb ++ batch
      · refine ⟨⟨true, iter, batches ++ [batch], kb ++ batch⟩, ?_⟩
        simp only [fcLoop, hbatch]
        rw [if_neg (by simp [hbe']), if_pos hq]
      · have hsubset : U.toFinset \ (kb ++ batch).toFinset ⊆
            U.toFinset \ kb.toFinset := by
          intro x hx
          rw [Finset.mem_sdiff] at hx ⊢
          refine ⟨hx.1, fun hxk => hx.2 ?_⟩
          rw [List.mem_toFinset] at hxk ⊢
          exact List.mem_append.mpr (.inl hxk)
        obtain ⟨b, hb⟩ := List.exists_mem_of_ne_nil batch hbe
        have hbU : b ∈ U := by
          obtain ⟨-, r, hr2, rs, hlen, hprs, hbeq⟩ := hnew b hb
          rw [hbeq]
          exact hUcl r hr2 rs hlen hprs
        have hbmem : b ∈ U.toFinset \ kb.toFinset := by
          rw [Finset.mem_sdiff, List.mem_toFinset, List.mem_toFinset]
          exact ⟨hbU, (hnew b hb).1⟩
        have hbnot : b ∉ U.toFinset \ (kb ++ batch).toFinset := by
          rw [Finset.mem_sdiff, List.mem_toFinset, List.mem_toFinset]
          rintro ⟨-, habs⟩
          exact habs (List.mem_append.mpr (.inr hb))
        have hdec : (U.toFinset \ (kb ++ batch).toFinset).card <
            (U.toFinset \ kb.toFinset).card :=
          Finset.card_lt_card ((Finset.ssubset_iff_of_subset hsubset).mpr ⟨b, hbmem, hbnot⟩)
        obtain ⟨res, hres⟩ := ihn (kb ++ batch) (batches ++ [batch]) (iter + 1) hinv2
          (by omega)
        refine ⟨res, ?_⟩
        simp only [fcLoop, hbatch]
        rw [if_neg (by simp [hbe']), if_neg hq]
        exact hres

/-- Claim C7. For every finite set of initial ground facts (constant-name
arguments) and every finite set of well-formed safe rules, the
forward-chaining round loop terminates — it reaches either convergence
(an empty round batch) or the query, never looping forever — within a
number of rounds bounded by the number of ground facts expressible over
the constants appearing in the initial facts and rules: `herbrandBase` is
the duplicate-free (`herbrandBase_nodup`) list of the renders of the
program's predicate signatures over tuples of those constants, all ground
(`herbrandBase_ground`), so its length is that number; every derivation
round adds at least one of these ground facts, and fuel `length + 1`
covers them plus the one final round that derives nothing new or finds
the query. -/
theorem forward_chaining_terminates (kb0 : List String) (rules : List Rule)
    (query : String)
    (hkb : ∀ f ∈ kb0, ∀ a ∈ (parse_fact f).2, isConstName a = true)
    (hr : ∀ r ∈ rules, RuleWF r) :
    ∃ res, forward_chaining ((herbrandBase rules kb0).length + 1)
      kb0 rules query = .ok (some res) := by
  have hrp : ∀ r ∈ rules, ∀ a ∈ (parse_fact r.2).2, a ∈ pool rules kb0 := by
    intro r hr2 a ha
    unfold pool
    apply List.mem_append.mpr
    refine .inr (List.mem_flatMap.mpr ⟨r, hr2, ?_⟩)
    exact List.mem_append.mpr (.inr ha)
  have hinv : KBInv (pool rules kb0) kb0 := by
    intro f hf a ha
    refine ⟨?_, hkb f hf a ha⟩
    unfold pool
    exact List.mem_append.mpr (.inl (List.mem_flatMap.mpr ⟨f, hf, ha⟩))
  have hUcl : ∀ r ∈ rules, ∀ rs, rs.length = (parse_fact r.2).2.length →
      (∀ a ∈ rs, a ∈ pool rules kb0 ∧ isConstName a = true) →
      renderFact (parse_fact r.2).1 rs ∈ herbrandBase rules kb0 := by
    intro r hr2 rs hlen hprs
    rw [mem_herbrandBase]
    refine ⟨((parse_fact r.2).1, (parse_fact r.2).2.length), ?_, rs, hlen, ?_, rfl⟩
    · unfold signaturesOf
      rw [List.mem_dedup]
      apply List.mem_map.mpr
      refine ⟨parse_fact r.2, ?_, rfl⟩
      apply List.mem_append.mpr
      refine .inr (List.mem_flatMap.mpr ⟨r, hr2, ?_⟩)
      exact List.mem_append.mpr (.inr (List.mem_singleton.mpr rfl))
    · intro a ha
      unfold constantsOf
      rw [List.mem_dedup]
      exact List.mem_filter.mpr ⟨(hprs a ha).1, (hprs a ha).2⟩
  apply fcLoop_terminates rules (pool rules kb0) (herbrandBase rules kb0) query hr hrp
    (pool_clean rules kb0) hUcl
    ((herbrandBase rules kb0).length + 1) kb0 [] 1 hinv
  calc ((herbrandBase rules kb0).toFinset \ kb0.toFinset).card
      ≤ (herbrandBase rules kb0).toFinset.card :=
        Finset.card_le_card (Finset.sdiff_subset)
    _ ≤ (herbrandBase rules kb0).length :=
        List.toFinset_card_le _
    _ < (herbrandBase rules kb0).length + 1 := Nat.lt_succ_self _

/-- Witness for `forward_chaining_terminates` at the crime scenario. -/
theorem forward_chaining_terminates_witness :
    ∃ res, forward_chaining
        ((herbrandBase crimeRules crimeKB).length + 1)
        crimeKB crimeRules "Criminal(Robert)" = .ok (some res) :=
  forward_chaining_terminates crimeKB crimeRules "Criminal(Robert)"
    (by decide) (by decide)

end FC
